import Mathlib

/-!
Verification development for the numeral transcription engine of
`base/number_util.cc` (mozc). Strings are modelled as `List Char`
(one entry per decoded UTF-8 character, exactly the unit in which the
C++ code walks its input), unsigned 64-bit quantities as `Nat` with
explicit bound checks against `UINT64_MAX`, and the C++ out-parameter
plus `bool` return conventions as `Option`/pairs.
-/

set_option maxRecDepth 16384

namespace Mozc

/-- Largest value of the C++ type `uint64_t`, i.e. `2 ^ 64 - 1`. -/
def UINT64_MAX : Nat := 18446744073709551615

/-- From `AddAndCheckOverflow` in number_util.cc: `*output = arg1 + arg2`,
returning false (here `none`) when `arg2 > numeric_limits<uint64_t>::max() - arg1`. -/
def addAndCheckOverflow (arg1 arg2 : Nat) : Option Nat :=
  if arg2 > UINT64_MAX - arg1 then none else some (arg1 + arg2)

/-- From `MultiplyAndCheckOverflow` in number_util.cc: `*output = arg1 * arg2`,
returning false (here `none`) when `arg1 != 0 && arg2 > max() / arg1`. -/
def multiplyAndCheckOverflow (arg1 arg2 : Nat) : Option Nat :=
  if arg1 ≠ 0 ∧ arg2 > UINT64_MAX / arg1 then none else some (arg1 * arg2)

/-- Loop body of `ReduceLeadingNumbersAsBase10System`: starting from the
accumulated `output`, consume leading tokens `< 10` computing
`output = output * 10 + token` with overflow checks. Returns the `output`
(`none` on overflow, mirroring `return false`) together with the position the
iterator stopped at. -/
def reduceLeadingNumbersAsBase10SystemAux (output : Nat) :
    List Nat → Option Nat × List Nat
  | [] => (some output, [])
  | v :: rest =>
    if v ≥ 10 then (some output, v :: rest)
    else
      match multiplyAndCheckOverflow output 10 with
      | none => (none, v :: rest)
      | some m =>
        match addAndCheckOverflow m v with
        | none => (none, v :: rest)
        | some s => reduceLeadingNumbersAsBase10SystemAux s rest

/-- `ReduceLeadingNumbersAsBase10System` from number_util.cc: `*output = 0`
followed by the reduction loop. -/
def reduceLeadingNumbersAsBase10System (numbers : List Nat) : Option Nat × List Nat :=
  reduceLeadingNumbersAsBase10SystemAux 0 numbers

/-- `InterpretNumbersAsBase10System` from number_util.cc: the reduction must
succeed and consume the whole sequence. -/
def interpretNumbersAsBase10System (numbers : List Nat) : Option Nat :=
  match reduceLeadingNumbersAsBase10System numbers with
  | (some v, []) => some v
  | _ => none

/-- `ReduceOnesDigit` from number_util.cc: fails if the range is empty or the
leading number is not less than 10; otherwise consumes one token. -/
def reduceOnesDigit : List Nat → Option Nat × List Nat
  | [] => (none, [])
  | v :: rest => if v ≥ 10 then (none, v :: rest) else (some v, rest)

/-- `ReduceDigitsHelper` from number_util.cc, for `expected_base` 10, 100 or
1000. The returned list is the iterator position after the call (the C++
function advances `*begin` even on some failing paths: past leading zeros, and
all the way to `end` when the base-10 sub-case fails its final checks). -/
def reduceDigitsHelper (tokens : List Nat) (expectedBase : Nat) :
    Option Nat × List Nat :=
  match tokens.dropWhile (fun t => t = 0) with
  | [] => (none, [])
  | leading :: rest1 =>
    if leading < 10 then
      match rest1 with
      | [] => (none, leading :: rest1)
      | next :: rest2 =>
        if next < 10 then
          match reduceLeadingNumbersAsBase10System (leading :: rest1) with
          | (none, _) => (none, [])
          | (some num, rest3) =>
            if num ≥ expectedBase * 10 ∨ (rest3 ≠ [] ∧ rest3.headD 0 < 10000) then
              (none, [])
            else (some num, rest3)
        else
          if next ≠ expectedBase ∨ (leading = 1 ∧ expectedBase ≠ 1000) then
            (none, leading :: rest1)
          else (some (leading * expectedBase), rest2)
    else
      if leading = expectedBase ∨ (expectedBase = 10 ∧ leading = 20) then
        (some leading, rest1)
      else (none, leading :: rest1)

/-- `ReduceNumberLessThan10000` from number_util.cc: try a thousands, hundreds,
tens and ones sub-match in order (each optional), requiring at least one
success and that afterwards the sequence is exhausted or continues with a
token `≥ 10000`. -/
def reduceNumberLessThan10000 (tokens : List Nat) : Option Nat × List Nat :=
  let r1 := reduceDigitsHelper tokens 1000
  let r2 := reduceDigitsHelper r1.2 100
  let r3 := reduceDigitsHelper r2.2 10
  let r4 := reduceOnesDigit r3.2
  let num := r1.1.getD 0 + r2.1.getD 0 + r3.1.getD 0 + r4.1.getD 0
  let success := r1.1.isSome ∨ r2.1.isSome ∨ r3.1.isSome ∨ r4.1.isSome
  if success ∧ (r4.2 = [] ∨ r4.2.headD 0 ≥ 10000) then (some num, r4.2)
  else (none, r4.2)

/-- Loop of `InterpretNumbersInJapaneseWay` from number_util.cc, with an
explicit fuel argument standing for the (terminating) C++ `do`/`while`. Each
iteration extracts one block `< 10000`, requires the following token to be a
strictly decreasing big-rank multiplier, and accumulates with overflow
checks. -/
def interpretNumbersInJapaneseWayAux (fuel : Nat) (lastBase acc : Nat) :
    List Nat → Option Nat :=
  fun numbers =>
    match fuel with
    | 0 => none
    | f + 1 =>
      match reduceNumberLessThan10000 numbers with
      | (none, _) => none
      | (some coef, rest) =>
        match rest with
        | [] => addAndCheckOverflow acc coef
        | base :: rest2 =>
          if base ≥ lastBase then none
          else
            match multiplyAndCheckOverflow coef base with
            | none => none
            | some delta =>
              match addAndCheckOverflow acc delta with
              | none => none
              | some acc2 =>
                if rest2 = [] then some acc2
                else interpretNumbersInJapaneseWayAux f base acc2 rest2

/-- `InterpretNumbersInJapaneseWay` from number_util.cc: `last_base` starts at
`uint64` max and `*output` at 0. A successful iteration consumes at least two
tokens, so fuel `length + 1` never runs out before the C++ loop exits. -/
def interpretNumbersInJapaneseWay (numbers : List Nat) : Option Nat :=
  interpretNumbersInJapaneseWayAux (numbers.length + 1) UINT64_MAX 0 numbers

/-- Left-to-right base-10 value of a digit-token list, i.e. the mathematical
concatenation that `InterpretNumbersAsBase10System` is meant to compute. -/
def base10Value (l : List Nat) : Nat := l.foldl (fun a d => a * 10 + d) 0

/-- Value of `*std::max_element` on a list of `Nat` (0 on the empty list, but
`normalizeNumbersHelper` guards that case exactly as the C++ does). -/
def listMax (l : List Nat) : Nat := l.foldl Nat.max 0

/-- `NormalizeNumbersHelper` from number_util.cc: empty input fails; a
sequence whose maximum is `< 10` is interpreted positionally, otherwise in the
Japanese way. -/
def normalizeNumbersHelper (numbers : List Nat) : Option Nat :=
  if numbers = [] then none
  else if listMax numbers < 10 then interpretNumbersAsBase10System numbers
  else interpretNumbersInJapaneseWay numbers

/-- The style enumeration `NumberUtil::NumberString::Style`. -/
inductive Style where
  | DEFAULT_STYLE
  | NUMBER_SEPARATED_ARABIC_HALFWIDTH
  | NUMBER_SEPARATED_ARABIC_FULLWIDTH
  | NUMBER_ARABIC_AND_KANJI_HALFWIDTH
  | NUMBER_ARABIC_AND_KANJI_FULLWIDTH
  | NUMBER_KANJI
  | NUMBER_OLD_KANJI
  | NUMBER_ROMAN_CAPITAL
  | NUMBER_ROMAN_SMALL
  | NUMBER_CIRCLED
  | NUMBER_KANJI_ARABIC
  | NUMBER_HEX
  | NUMBER_OCT
  | NUMBER_BIN
deriving DecidableEq, Repr

/-- `NumberUtil::NumberString`: an immutable (text, description, style)
triple. Texts are lists of decoded characters. -/
structure NumberString where
  value : List Char
  description : String
  style : Style
deriving DecidableEq, Repr

/-- Table `kNumKanjiDigits` (a trailing `nullptr` closes the C++ array). -/
def kNumKanjiDigits : List (Option (List Char)) :=
  [some ['〇'], some ['一'], some ['二'], some ['三'], some ['四'],
   some ['五'], some ['六'], some ['七'], some ['八'], some ['九'], none]

/-- Table `kNumKanjiOldDigits`. -/
def kNumKanjiOldDigits : List (Option (List Char)) :=
  [none, some ['壱'], some ['弐'], some ['参'], some ['四'],
   some ['五'], some ['六'], some ['七'], some ['八'], some ['九']]

/-- Table `kNumFullWidthDigits`. -/
def kNumFullWidthDigits : List (Option (List Char)) :=
  [some ['０'], some ['１'], some ['２'], some ['３'], some ['４'],
   some ['５'], some ['６'], some ['７'], some ['８'], some ['９'], none]

/-- Table `kNumHalfWidthDigits`. -/
def kNumHalfWidthDigits : List (Option (List Char)) :=
  [some ['0'], some ['1'], some ['2'], some ['3'], some ['4'],
   some ['5'], some ['6'], some ['7'], some ['8'], some ['9'], none]

/-- Table `kNumKanjiRanks` (`nullptr`, "", 十, 百, 千). -/
def kNumKanjiRanks : List (Option (List Char)) :=
  [none, some [], some ['十'], some ['百'], some ['千']]

/-- Table `kNumKanjiBiggerRanks` ("", 万, 億, 兆, 京). -/
def kNumKanjiBiggerRanks : List (Option (List Char)) :=
  [some [], some ['万'], some ['億'], some ['兆'], some ['京']]

/-- Table `kNumKanjiOldRanks` (`nullptr`, "", 拾, 百, 阡). -/
def kNumKanjiOldRanks : List (Option (List Char)) :=
  [none, some [], some ['拾'], some ['百'], some ['阡']]

/-- Table `kNumKanjiBiggerOldRanks` ("", 萬, 億, 兆, 京). -/
def kNumKanjiBiggerOldRanks : List (Option (List Char)) :=
  [some [], some ['萬'], some ['億'], some ['兆'], some ['京']]

/-- Table `kRomanNumbersCapital` (14 entries, `nullptr` at 0 and 13). -/
def kRomanNumbersCapital : List (Option (List Char)) :=
  [none, some ['Ⅰ'], some ['Ⅱ'], some ['Ⅲ'], some ['Ⅳ'], some ['Ⅴ'],
   some ['Ⅵ'], some ['Ⅶ'], some ['Ⅷ'], some ['Ⅸ'], some ['Ⅹ'],
   some ['Ⅺ'], some ['Ⅻ'], none]

/-- Table `kRomanNumbersSmall` (14 entries, `nullptr` at 0 and 13). -/
def kRomanNumbersSmall : List (Option (List Char)) :=
  [none, some ['ⅰ'], some ['ⅱ'], some ['ⅲ'], some ['ⅳ'], some ['ⅴ'],
   some ['ⅵ'], some ['ⅶ'], some ['ⅷ'], some ['ⅸ'], some ['ⅹ'],
   some ['ⅺ'], some ['ⅻ'], none]

/-- Table `kCircledNumbers` (52 entries, `nullptr` at 0 and 51). -/
def kCircledNumbers : List (Option (List Char)) :=
  [none, some ['①'], some ['②'], some ['③'], some ['④'], some ['⑤'],
   some ['⑥'], some ['⑦'], some ['⑧'], some ['⑨'], some ['⑩'],
   some ['⑪'], some ['⑫'], some ['⑬'], some ['⑭'], some ['⑮'],
   some ['⑯'], some ['⑰'], some ['⑱'], some ['⑲'], some ['⑳'],
   some ['㉑'], some ['㉒'], some ['㉓'], some ['㉔'], some ['㉕'],
   some ['㉖'], some ['㉗'], some ['㉘'], some ['㉙'], some ['㉚'],
   some ['㉛'], some ['㉜'], some ['㉝'], some ['㉞'], some ['㉟'],
   some ['㊱'], some ['㊲'], some ['㊳'], some ['㊴'], some ['㊵'],
   some ['㊶'], some ['㊷'], some ['㊸'], some ['㊹'], some ['㊺'],
   some ['㊻'], some ['㊼'], some ['㊽'], some ['㊾'], some ['㊿'], none]

/-- `IsDecimalInteger` from number_util.cc: non-empty and every character an
ASCII digit. -/
def isDecimalInteger (str : List Char) : Bool :=
  !str.isEmpty && str.all Char.isDigit

/-- Loop of `IsDecimalNumber` from number_util.cc, carrying the running count
of decimal points seen so far. -/
def isDecimalNumberAux : List Char → Nat → Bool
  | [], _ => true
  | c :: rest, numPoint =>
    if c = '.' then
      if numPoint + 1 ≥ 2 then false else isDecimalNumberAux rest (numPoint + 1)
    else if ¬ c.isDigit then false
    else isDecimalNumberAux rest numPoint

/-- `IsDecimalNumber` from number_util.cc: all characters are digits with at
most one decimal point (the point may trail; the empty string is accepted). -/
def isDecimalNumber (str : List Char) : Bool := isDecimalNumberAux str 0

/-- Modelled from the spec: the per-character Kanji-numeral substitution used
by `NumberUtil::KanjiNumberToArabicNumber` (whose data table,
`japanese_util_rule::kanjinumber_to_arabicnumber`, is not part of this
sample). Digit glyphs (plain Kanji, Daiji, half- and full-width) map to their
digit value, rank glyphs to their decimal value, and every other character
fails, which makes the tokenizer stop. -/
def kanjiNumberToArabicNumber (c : Char) : Option Nat :=
  match c with
  | '〇' => some 0 | '零' => some 0
  | '一' => some 1 | '壱' => some 1
  | '二' => some 2 | '弐' => some 2
  | '三' => some 3 | '参' => some 3
  | '四' => some 4 | '五' => some 5 | '六' => some 6
  | '七' => some 7 | '八' => some 8 | '九' => some 9
  | '十' => some 10 | '拾' => some 10 | '廿' => some 20
  | '百' => some 100
  | '千' => some 1000 | '阡' => some 1000
  | '万' => some 10000 | '萬' => some 10000
  | '億' => some 100000000
  | '兆' => some 1000000000000
  | '京' => some 10000000000000000
  | _ =>
    if '0' ≤ c ∧ c ≤ '9' then some (c.toNat - 48)
    else if c.toNat ≥ 0xFF10 ∧ c.toNat ≤ 0xFF19 then some (c.toNat - 0xFF10)
    else none

/-- The normalized Kanji-digit echo built by `NormalizeNumbersInternal`: an
ASCII or full-width digit is echoed as its plain Kanji digit glyph, any other
consumed character is echoed unchanged. -/
def kanjiDigitEcho (c : Char) : List Char :=
  if '0' ≤ c ∧ c ≤ '9' then (kNumKanjiDigits.getD (c.toNat - 48) none).getD [c]
  else if c.toNat ≥ 0xFF10 ∧ c.toNat ≤ 0xFF19 then
    (kNumKanjiDigits.getD (c.toNat - 0xFF10) none).getD [c]
  else [c]

/-- ASCII character of a digit value below 10. -/
def digitChar (d : Nat) : Char := Char.ofNat (48 + d)

/-- Decimal digits of `n`, least significant first, with explicit fuel; 64
units of fuel are enough for every value a 64-bit quantity can take. -/
def toDigitsRevFuel : Nat → Nat → List Nat
  | 0, _ => []
  | fuel + 1, n => if n = 0 then [] else n % 10 :: toDigitsRevFuel fuel (n / 10)

/-- Decimal digits of `n < 10 ^ 64`, least significant first (empty for 0). -/
def toDigitsRev (n : Nat) : List Nat := toDigitsRevFuel 64 n

/-- The canonical decimal string of `n` (the value of C++ `StrFormat("%u", n)`
and of the claim-level `str(n)`), as a character list. -/
def strOfNat (n : Nat) : List Char :=
  if n = 0 then ['0'] else ((toDigitsRev n).reverse.map digitChar)

/-- The tokenizing loop of `NormalizeNumbersInternal`: substitute characters
one at a time until one fails, returning the collected tokens, the Kanji echo
of the consumed characters and the unconsumed remainder. -/
def tokenizeAux : List Char → List Nat × List Char × List Char
  | [] => ([], [], [])
  | c :: rest =>
    match kanjiNumberToArabicNumber c with
    | none => ([], [], c :: rest)
    | some n =>
      let r := tokenizeAux rest
      (n :: r.1, kanjiDigitEcho c ++ r.2.1, r.2.2)

/-- `NormalizeNumbersInternal` from number_util.cc. Returns
`(kanji_output, arabic_output, suffix)` on success, `none` on failure. -/
def normalizeNumbersInternal (input : List Char) (trimLeadingZeros allowSuffix : Bool) :
    Option (List Char × List Char × List Char) :=
  let r := tokenizeAux input
  let numbers := r.1
  if r.2.2 ≠ [] ∧ ¬ allowSuffix then none
  else if numbers = [] then none
  else
    match normalizeNumbersHelper numbers with
    | none => none
    | some n =>
      let zeros : List Char :=
        if trimLeadingZeros then []
        else
          let numZeros := (numbers.takeWhile (fun t => t = 0)).length
          let numZeros := if numZeros = numbers.length then numZeros - 1 else numZeros
          List.replicate numZeros '0'
      some (r.2.1, zeros ++ strOfNat n, r.2.2)

/-- `NumberUtil::NormalizeNumbers`: suffix capture disabled. Returns
`(kanji_output, arabic_output)` on success. -/
def normalizeNumbers (input : List Char) (trimLeadingZeros : Bool) :
    Option (List Char × List Char) :=
  (normalizeNumbersInternal input trimLeadingZeros false).map fun r => (r.1, r.2.1)

/-- `NumberUtil::NormalizeNumbersWithSuffix`: suffix capture enabled. -/
def normalizeNumbersWithSuffix (input : List Char) (trimLeadingZeros : Bool) :
    Option (List Char × List Char × List Char) :=
  normalizeNumbersInternal input trimLeadingZeros true

/-- Behaviour of `absl::SimpleAtoi<uint64_t>` on the inputs number_util.cc
passes it (strings that already satisfied `IsDecimalInteger`): the decimal
value when it fits in 64 unsigned bits, failure on overflow or any
non-digit-string input. -/
def simpleAtoiU64 (s : List Char) : Option Nat :=
  if isDecimalInteger s then
    let v := base10Value (s.map fun c => c.toNat - 48)
    if v ≤ UINT64_MAX then some v else none
  else none

/-- Digits of `n` in radix `base`, least significant first, with fuel (64
units cover every 64-bit value for every base ≥ 2). -/
def radixDigitsRevFuel (base : Nat) : Nat → Nat → List Nat
  | 0, _ => []
  | fuel + 1, n => if n = 0 then [] else n % base :: radixDigitsRevFuel base fuel (n / base)

/-- Lowercase hexadecimal digit character of a value below 16. -/
def hexDigitChar (d : Nat) : Char :=
  if d < 10 then digitChar d else Char.ofNat (87 + d)

/-- Value of `absl::StrFormat("0x%x", n)`: "0x" then lowercase hex digits. -/
def hexFormat (n : Nat) : List Char :=
  ['0', 'x'] ++
    (if n = 0 then ['0'] else (radixDigitsRevFuel 16 64 n).reverse.map hexDigitChar)

/-- Value of `absl::StrFormat("0%o", n)`: a literal '0' then octal digits. -/
def octFormat (n : Nat) : List Char :=
  ['0'] ++ (if n = 0 then ['0'] else (radixDigitsRevFuel 8 64 n).reverse.map digitChar)

/-- The binary loop of `ArabicToOtherRadixes`: push `'0' + (num & 1)` while
`num` is nonzero, shifting right each step. -/
def binaryLoopFuel : Nat → Nat → List Char
  | 0, _ => []
  | fuel + 1, num => if num = 0 then [] else digitChar (num % 2) :: binaryLoopFuel fuel (num / 2)

/-- Binary text built by `ArabicToOtherRadixes`: the low-bit-first characters,
then "b0" appended, then the whole string reversed. -/
def binFormat (n : Nat) : List Char :=
  (binaryLoopFuel 64 n ++ ['b', '0']).reverse

/-- `NumberUtil::ArabicToOtherRadixes` from number_util.cc: hex for `n > 9`,
octal for `n > 7`, binary for `n > 1`; the boolean result (`n > 1` after a
successful parse) is paired with the pushed results. -/
def arabicToOtherRadixes (inputNum : List Char) : Bool × List NumberString :=
  if ¬ isDecimalInteger inputNum then (false, [])
  else
    match simpleAtoiU64 inputNum with
    | none => (false, [])
    | some n =>
      let hex := if n > 9 then [NumberString.mk (hexFormat n) "16進数" Style.NUMBER_HEX] else []
      let oct := if n > 7 then [NumberString.mk (octFormat n) "8進数" Style.NUMBER_OCT] else []
      let bin := if n > 1 then [NumberString.mk (binFormat n) "2進数" Style.NUMBER_BIN] else []
      (n > 1, hex ++ oct ++ bin)

/-- The literal 101-character "10^100" string `kNumGoogol`. -/
def kNumGoogol : List Char :=
  ("1000000000000000000000000000000000000000000000000000" ++
   "0000000000000000000000000000000000000000000000000").data

/-- The `kSpecialNumericVariations` loop body of `ArabicToOtherForms`: for
each of the Roman capital, Roman small and circled tables, emit the glyph at
index `n` when the index is within the array and non-null. -/
def specialNumericResults (n : Nat) : List NumberString :=
  (if n < 14 then
     match kRomanNumbersCapital.getD n none with
     | some g => [NumberString.mk g "ローマ数字(大文字)" Style.NUMBER_ROMAN_CAPITAL]
     | none => []
   else []) ++
  (if n < 14 then
     match kRomanNumbersSmall.getD n none with
     | some g => [NumberString.mk g "ローマ数字(小文字)" Style.NUMBER_ROMAN_SMALL]
     | none => []
   else []) ++
  (if n < 52 then
     match kCircledNumbers.getD n none with
     | some g => [NumberString.mk g "丸数字" Style.NUMBER_CIRCLED]
     | none => []
   else [])

/-- `NumberUtil::ArabicToOtherForms` from number_util.cc: the Googol literal
is checked before (and independently of) the `uint64` parse; then the three
special tables are consulted. The boolean mirrors `converted`. -/
def arabicToOtherForms (inputNum : List Char) : Bool × List NumberString :=
  if ¬ isDecimalInteger inputNum then (false, [])
  else
    let googolResults :=
      if inputNum = kNumGoogol then
        [NumberString.mk "Googol".data "" Style.DEFAULT_STYLE]
      else []
    match simpleAtoiU64 inputNum with
    | none => (¬ googolResults.isEmpty, googolResults)
    | some n =>
      let special := specialNumericResults n
      (¬ googolResults.isEmpty ∨ ¬ special.isEmpty, googolResults ++ special)

/-- Integral-part loop of `ArabicToSeparatedArabic`: before position `j ≠ 0`
with `(size - j) % 3 == 0` the separator is inserted, then the digit glyph
(guarded by `d <= 9 && digits[d]`, as in the source). -/
def separatedIntegralAux (digits : List (Option (List Char))) (sep : List Char)
    (size : Nat) : Nat → List Char → List Char
  | _, [] => []
  | j, c :: rest =>
    (if j ≠ 0 ∧ (size - j) % 3 = 0 then sep else []) ++
      (let d := c.toNat - 48
       if d ≤ 9 ∧ (digits.getD d none).isSome then (digits.getD d none).getD []
       else []) ++
      separatedIntegralAux digits sep size (j + 1) rest

/-- Fractional-part loop of `ArabicToSeparatedArabic`: the point glyph, then
each digit after the point mapped through the digit table. -/
def separatedFractionPart (digits : List (Option (List Char))) (point : List Char)
    (fraction : List Char) : List Char :=
  if fraction = [] then []
  else point ++ ((fraction.drop 1).map (fun c => (digits.getD (c.toNat - 48) none).getD [])).flatten

/-- `NumberUtil::ArabicToSeparatedArabic` from number_util.cc. The result is
`none` exactly when the code reads `integer[0]` out of bounds (an input that
passes `IsDecimalNumber` but whose integral part is empty — the empty string
or a string starting with '.'); otherwise it is the C++ (bool, results)
pair. -/
def arabicToSeparatedArabic (inputNum : List Char) :
    Option (Bool × List NumberString) :=
  if ¬ isDecimalNumber inputNum then some (false, [])
  else
    let pointPos := (inputNum.takeWhile (fun c => c ≠ '.')).length
    let integer := inputNum.take pointPos
    let fraction := inputNum.drop pointPos
    match integer with
    | [] => none
    | c0 :: _ =>
      if c0 = '0' then some (false, [])
      else
        some (true,
          [NumberString.mk
            (separatedIntegralAux kNumHalfWidthDigits [','] integer.length 0 integer ++
             separatedFractionPart kNumHalfWidthDigits ['.'] fraction)
            "数字" Style.NUMBER_SEPARATED_ARABIC_HALFWIDTH,
           NumberString.mk
            (separatedIntegralAux kNumFullWidthDigits ['，'] integer.length 0 integer ++
             separatedFractionPart kNumFullWidthDigits ['．'] fraction)
            "数字" Style.NUMBER_SEPARATED_ARABIC_FULLWIDTH])

/-- Look an index up in a glyph table, with both the out-of-range and the
`nullptr` case collapsing to the empty glyph (number_util.cc only dereferences
in-range non-null entries on the paths modelled here). -/
def tableLookup (t : List (Option (List Char))) (i : Nat) : List Char :=
  (t.getD i none).getD []

/-- The `variation.digits` table of the `kKanjiVariations` entry with the
given style. -/
def kanjiVariationDigits (style : Style) : List (Option (List Char)) :=
  match style with
  | Style.NUMBER_ARABIC_AND_KANJI_HALFWIDTH => kNumHalfWidthDigits
  | Style.NUMBER_ARABIC_AND_KANJI_FULLWIDTH => kNumFullWidthDigits
  | Style.NUMBER_KANJI => kNumKanjiDigits
  | Style.NUMBER_OLD_KANJI => kNumKanjiOldDigits
  | _ => []

/-- The `ranks` table selected inside `ArabicToKanji` (old ranks for the
Daiji style, plain Kanji ranks otherwise). -/
def kanjiVariationRanks (style : Style) : List (Option (List Char)) :=
  if style = Style.NUMBER_OLD_KANJI then kNumKanjiOldRanks else kNumKanjiRanks

/-- The `bigger_ranks` table selected inside `ArabicToKanji`. -/
def kanjiVariationBiggerRanks (style : Style) : List (Option (List Char)) :=
  if style = Style.NUMBER_OLD_KANJI then kNumKanjiBiggerOldRanks else kNumKanjiBiggerRanks

/-- The per-segment loop of `ArabicToKanji`: position `i` runs over the four
digits of one segment, `leading` tracks whether only leading zeros have been
seen. Arabic-digit styles emit only digit glyphs; Kanji styles skip zeros,
omit a non-final digit "1" (except in Daiji) and always append the position's
ones-rank word `ranks[4 - i]`. -/
def segmentResultAux (style : Style) : List Char → Nat → Bool → List Char
  | [], _, _ => []
  | c :: rest, i, leading =>
    if leading ∧ c = '0' then segmentResultAux style rest (i + 1) true
    else if style = Style.NUMBER_ARABIC_AND_KANJI_HALFWIDTH ∨
            style = Style.NUMBER_ARABIC_AND_KANJI_FULLWIDTH then
      tableLookup (kanjiVariationDigits style) (c.toNat - 48) ++
        segmentResultAux style rest (i + 1) false
    else if c = '0' then segmentResultAux style rest (i + 1) false
    else
      ((if style = Style.NUMBER_OLD_KANJI ∨ i = 4 - 1 ∨ c ≠ '1' then
          tableLookup (kanjiVariationDigits style) (c.toNat - 48)
        else []) ++
        tableLookup (kanjiVariationRanks style) (4 - i)) ++
        segmentResultAux style rest (i + 1) false

/-- One segment's `segment_result` in `ArabicToKanji`. -/
def segmentResult (style : Style) (segment : List Char) : List Char :=
  segmentResultAux style segment 0 true

/-- The rank loop of `ArabicToKanji`, most significant segment first: a
non-empty segment result is followed by the segment's bigger-rank suffix
(index = number of segments below it). -/
def renderRanked (style : Style) : List (List Char) → List Char
  | [] => []
  | seg :: restChunks =>
    let sr := segmentResult style seg
    (if sr = [] then []
     else sr ++ tableLookup (kanjiVariationBiggerRanks style) restChunks.length) ++
      renderRanked style restChunks

/-- Segmentation of the zero-padded input into 4-digit pieces (most
significant first; number_util.cc collects them least significant first and
then iterates them in this order). -/
def chunk4 : List Char → List (List Char)
  | c1 :: c2 :: c3 :: c4 :: rest => [c1, c2, c3, c4] :: chunk4 rest
  | _ => []

/-- The iterative global replacement of the two-character sequence `弐拾`
(`kOldTwoTen`) by the single archaic glyph `廿` (`kOldTwenty`) performed on
the Daiji result. -/
def replaceTwoTen : List Char → List Char
  | '弐' :: '拾' :: rest => '廿' :: replaceTwoTen rest
  | c :: rest => c :: replaceTwoTen rest
  | [] => []

/-- Whether `result.find(kOldTwoTen)` succeeds, i.e. `弐拾` occurs. -/
def containsTwoTen : List Char → Bool
  | '弐' :: '拾' :: _ => true
  | _ :: rest => containsTwoTen rest
  | [] => false

/-- `NumberUtil::ArabicToKanji` from number_util.cc: reject non-decimal
input; an all-zero string yields the single literal `零` Daiji result; more
than 20 digits is rejected; otherwise the input is zero-padded to a multiple
of four digits, segmented, and rendered in the four `kKanjiVariations`
styles (the Arabic-digit styles only when there are at least two segments),
with the Daiji style's `廿` variant and its literal `拾`/`阡` overrides. -/
def arabicToKanji (inputNum : List Char) : Bool × List NumberString :=
  if ¬ isDecimalInteger inputNum then (false, [])
  else if inputNum.dropWhile (fun c => c = '0') = [] then
    (true, [NumberString.mk ['零'] "大字" Style.NUMBER_OLD_KANJI])
  else if 5 * 4 < inputNum.length then (false, [])
  else
    let filledZeroNum := (4 - inputNum.length % 4) % 4
    let input := List.replicate filledZeroNum '0' ++ inputNum
    let rankedNumbers := chunk4 input
    let rankSize := rankedNumbers.length
    let oldText := renderRanked Style.NUMBER_OLD_KANJI rankedNumbers
    (true,
      (if rankSize = 1 then []
       else [NumberString.mk (renderRanked Style.NUMBER_ARABIC_AND_KANJI_HALFWIDTH rankedNumbers)
               "数字" Style.NUMBER_ARABIC_AND_KANJI_HALFWIDTH]) ++
      (if rankSize = 1 then []
       else [NumberString.mk (renderRanked Style.NUMBER_ARABIC_AND_KANJI_FULLWIDTH rankedNumbers)
               "数字" Style.NUMBER_ARABIC_AND_KANJI_FULLWIDTH]) ++
      [NumberString.mk (renderRanked Style.NUMBER_KANJI rankedNumbers) "漢数字" Style.NUMBER_KANJI] ++
      [NumberString.mk oldText "大字" Style.NUMBER_OLD_KANJI] ++
      (if containsTwoTen oldText then
         [NumberString.mk (replaceTwoTen oldText) "大字" Style.NUMBER_OLD_KANJI]
       else []) ++
      (if input = "0010".data then [NumberString.mk ['拾'] "大字" Style.NUMBER_OLD_KANJI] else []) ++
      (if input = "1000".data then [NumberString.mk ['阡'] "大字" Style.NUMBER_OLD_KANJI] else []))

/-- `NumberUtil::ArabicToWideArabic` from number_util.cc: per-character
mapping through the Kanji digit table (style `NUMBER_KANJI_ARABIC`) and the
full-width digit table (style `DEFAULT_STYLE`); each result is pushed only
when non-empty. -/
def arabicToWideArabic (inputNum : List Char) : Bool × List NumberString :=
  if ¬ isDecimalInteger inputNum then (false, [])
  else
    let kanji := (inputNum.map fun c => tableLookup kNumKanjiDigits (c.toNat - 48)).flatten
    let wide := (inputNum.map fun c => tableLookup kNumFullWidthDigits (c.toNat - 48)).flatten
    (true,
      (if kanji = [] then []
       else [NumberString.mk kanji "漢数字" Style.NUMBER_KANJI_ARABIC]) ++
      (if wide = [] then []
       else [NumberString.mk wide "数字" Style.DEFAULT_STYLE]))

/-- Value of a digit list, least significant digit first. -/
def ofDigitsRev : List Nat → Nat
  | [] => 0
  | d :: ds => d + 10 * ofDigitsRev ds

/-- Token value of a consumed character (total version of the tokenizer's
per-character substitution; only applied to characters the table accepts). -/
def tokValue (c : Char) : Nat := (kanjiNumberToArabicNumber c).getD 0

/-- Digit value of an ASCII digit character. -/
def charDigit (c : Char) : Nat := c.toNat - 48

/-- Expected token sequence of one digit-and-rank piece inside a 4-digit
group: rank word `b ∈ {10, 100, 1000}`, digit `d` at that rank. `omitOne`
corresponds to the plain-Kanji style (digit "1" is not spelled), and
`useTwenty` to the Daiji variant in which `弐拾` has been replaced by `廿`. -/
def pieceTokens (omitOne useTwenty : Bool) (b d : Nat) : List Nat :=
  if d = 0 then []
  else if useTwenty = true ∧ d = 2 ∧ b = 10 then [20]
  else if omitOne = true ∧ d = 1 then [b]
  else [d, b]

/-- Expected token sequence of one 4-digit group `[d3, d2, d1, d0]`. -/
def segTokens (omitOne useTwenty : Bool) (d3 d2 d1 d0 : Nat) : List Nat :=
  pieceTokens omitOne useTwenty 1000 d3 ++ pieceTokens omitOne useTwenty 100 d2 ++
    pieceTokens omitOne useTwenty 10 d1 ++ (if d0 = 0 then [] else [d0])

/-- Value of one 4-digit group. -/
def segValue (d3 d2 d1 d0 : Nat) : Nat := 1000 * d3 + 100 * d2 + 10 * d1 + d0

/-- Token sequence of a 4-character segment (most significant digit first). -/
def chunkTokens (omitOne useTwenty : Bool) (seg : List Char) : List Nat :=
  match seg with
  | [c3, c2, c1, c0] =>
    segTokens omitOne useTwenty (charDigit c3) (charDigit c2) (charDigit c1) (charDigit c0)
  | _ => []

/-- Value of a 4-character segment. -/
def chunkValue (seg : List Char) : Nat :=
  match seg with
  | [c3, c2, c1, c0] =>
    segValue (charDigit c3) (charDigit c2) (charDigit c1) (charDigit c0)
  | _ => 0

/-- The big-rank token closing a group with `k` groups below it. -/
def bigRankTokens (k : Nat) : List Nat :=
  if k = 0 then [] else [10 ^ (4 * k)]

/-- Expected token sequence of a whole segment list (most significant group
first, each non-empty group followed by its big-rank token). -/
def chunksTokens (omitOne useTwenty : Bool) : List (List Char) → List Nat
  | [] => []
  | seg :: rest =>
    (let t := chunkTokens omitOne useTwenty seg
     if t = [] then [] else t ++ bigRankTokens rest.length) ++
      chunksTokens omitOne useTwenty rest

/-- Value of a segment list (most significant group first). -/
def chunksValue : List (List Char) → Nat
  | [] => 0
  | seg :: rest => chunkValue seg * 10 ^ (4 * rest.length) + chunksValue rest

/-- Base-10 accumulation starting from `acc` (the loop invariant value of
`ReduceLeadingNumbersAsBase10System`). -/
def base10ValueFrom (acc : Nat) (l : List Nat) : Nat :=
  l.foldl (fun a d => a * 10 + d) acc

theorem base10ValueFrom_nil (acc : Nat) : base10ValueFrom acc [] = acc := rfl

theorem base10ValueFrom_cons (acc v : Nat) (l : List Nat) :
    base10ValueFrom acc (v :: l) = base10ValueFrom (acc * 10 + v) l := rfl

theorem base10Value_eq_from (l : List Nat) : base10Value l = base10ValueFrom 0 l := rfl

theorem le_base10ValueFrom (l : List Nat) : ∀ acc, acc ≤ base10ValueFrom acc l := by
  induction l with
  | nil => intro acc; simp [base10ValueFrom_nil]
  | cons v rest ih =>
    intro acc
    rw [base10ValueFrom_cons]
    exact le_trans (by omega) (ih (acc * 10 + v))

theorem base10ValueFrom_append (acc : Nat) (l1 l2 : List Nat) :
    base10ValueFrom acc (l1 ++ l2) = base10ValueFrom (base10ValueFrom acc l1) l2 := by
  simp [base10ValueFrom, List.foldl_append]

theorem addAndCheckOverflow_none_iff {a b : Nat} (ha : a ≤ UINT64_MAX) :
    addAndCheckOverflow a b = none ↔ UINT64_MAX < a + b := by
  unfold addAndCheckOverflow
  split <;> simp_all <;> omega

theorem multiplyAndCheckOverflow_none_iff (a b : Nat) :
    multiplyAndCheckOverflow a b = none ↔ UINT64_MAX < a * b := by
  unfold multiplyAndCheckOverflow
  rcases Nat.eq_zero_or_pos a with rfl | hpos
  · simp
  · have hdiv : UINT64_MAX / a < b ↔ UINT64_MAX < a * b := by
      rw [Nat.mul_comm]
      exact Nat.div_lt_iff_lt_mul hpos
    constructor
    · intro h
      split at h
      · rename_i hc
        exact hdiv.mp hc.2
      · exact absurd h (by simp)
    · intro h
      rw [if_pos ⟨by omega, hdiv.mpr h⟩]

theorem addAndCheckOverflow_some {a b s : Nat} (ha : a ≤ UINT64_MAX)
    (h : addAndCheckOverflow a b = some s) : s = a + b ∧ s ≤ UINT64_MAX := by
  unfold addAndCheckOverflow at h
  split at h <;> simp_all <;> omega

theorem multiplyAndCheckOverflow_some {a b m : Nat}
    (h : multiplyAndCheckOverflow a b = some m) : m = a * b ∧ m ≤ UINT64_MAX := by
  unfold multiplyAndCheckOverflow at h
  split at h
  · exact absurd h (by simp)
  · rename_i hcond
    refine ⟨by simp_all, ?_⟩
    obtain rfl : m = a * b := by simp_all
    rcases Nat.eq_zero_or_pos a with rfl | hpos
    · simp
    · have hb : b ≤ UINT64_MAX / a := by
        by_contra hc
        exact hcond ⟨by omega, by omega⟩
      calc a * b ≤ a * (UINT64_MAX / a) := Nat.mul_le_mul_left a hb
        _ ≤ UINT64_MAX := Nat.mul_div_le UINT64_MAX a

theorem foldl_max_init_le (l : List Nat) : ∀ init, init ≤ l.foldl Nat.max init := by
  induction l with
  | nil => intro init; simp
  | cons v rest ih =>
    intro init
    exact le_trans (Nat.le_max_left init v) (ih (Nat.max init v))

theorem foldl_max_mono (l : List Nat) :
    ∀ i1 i2, i1 ≤ i2 → l.foldl Nat.max i1 ≤ l.foldl Nat.max i2 := by
  induction l with
  | nil => intro i1 i2 h; simpa
  | cons v rest ih =>
    intro i1 i2 h
    simp only [List.foldl_cons]
    exact ih _ _ (Nat.max_le.mpr
      ⟨le_trans h (Nat.le_max_left i2 v), Nat.le_max_right i2 v⟩)

theorem le_listMax_of_mem {x : Nat} {l : List Nat} (h : x ∈ l) : x ≤ listMax l := by
  unfold listMax
  induction l with
  | nil => cases h
  | cons v rest ih =>
    simp only [List.foldl_cons]
    rcases List.mem_cons.mp h with rfl | hr
    · exact le_trans (Nat.le_max_right 0 x) (foldl_max_init_le rest _)
    · exact le_trans (ih hr) (foldl_max_mono rest _ _ (Nat.zero_le _))

theorem listMax_lt {l : List Nat} {c : Nat} (hc : 0 < c) (h : ∀ x ∈ l, x < c) :
    listMax l < c := by
  unfold listMax
  have key : ∀ (t : List Nat), (∀ x ∈ t, x < c) → ∀ init, init < c →
      t.foldl Nat.max init < c := by
    intro t
    induction t with
    | nil => intro _ init hi; simpa
    | cons v rest ih =>
      intro hall init hi
      simp only [List.foldl_cons]
      exact ih (fun x hx => hall x (List.mem_cons_of_mem v hx)) _
        (Nat.max_lt.mpr ⟨hi, hall v (List.mem_cons_self v rest)⟩)
  exact key l h 0 hc

theorem reduceLeadingBase10Aux_spec (l : List Nat) :
    ∀ acc, (∀ x ∈ l, x < 10) → acc ≤ UINT64_MAX →
      (base10ValueFrom acc l ≤ UINT64_MAX →
        reduceLeadingNumbersAsBase10SystemAux acc l = (some (base10ValueFrom acc l), [])) ∧
      (UINT64_MAX < base10ValueFrom acc l →
        (reduceLeadingNumbersAsBase10SystemAux acc l).1 = none) := by
  induction l with
  | nil =>
    intro acc _ hacc
    constructor
    · intro _; simp [reduceLeadingNumbersAsBase10SystemAux, base10ValueFrom_nil]
    · intro h; rw [base10ValueFrom_nil] at h; omega
  | cons v rest ih =>
    intro acc hall hacc
    have hv : v < 10 := hall v (List.mem_cons_self v rest)
    have hrest : ∀ x ∈ rest, x < 10 := fun x hx => hall x (List.mem_cons_of_mem v hx)
    have hge : acc * 10 + v ≤ base10ValueFrom (acc * 10 + v) rest :=
      le_base10ValueFrom rest (acc * 10 + v)
    simp only [base10ValueFrom_cons]
    have hred : reduceLeadingNumbersAsBase10SystemAux acc (v :: rest) =
        (match multiplyAndCheckOverflow acc 10 with
         | none => ((none : Option Nat), v :: rest)
         | some m =>
           match addAndCheckOverflow m v with
           | none => ((none : Option Nat), v :: rest)
           | some s => reduceLeadingNumbersAsBase10SystemAux s rest) := by
      conv_lhs => unfold reduceLeadingNumbersAsBase10SystemAux
      rw [if_neg (by omega)]
    rw [hred]
    cases hmul : multiplyAndCheckOverflow acc 10 with
    | none =>
      have hlt := (multiplyAndCheckOverflow_none_iff acc 10).mp hmul
      simp only [hmul]
      constructor
      · intro hle
        exact absurd hle (by omega)
      · intro _; trivial
    | some m =>
      obtain ⟨rfl, hmle⟩ := multiplyAndCheckOverflow_some hmul
      cases hadd : addAndCheckOverflow (acc * 10) v with
      | none =>
        have hlt := (addAndCheckOverflow_none_iff hmle).mp hadd
        simp only [hmul, hadd]
        constructor
        · intro hle
          exact absurd hle (by omega)
        · intro _; trivial
      | some s =>
        obtain ⟨rfl, hsle⟩ := addAndCheckOverflow_some hmle hadd
        simp only [hmul, hadd]
        exact ih (acc * 10 + v) hrest hsle

theorem interpretJapaneseAux_le (fuel : Nat) :
    ∀ lastBase acc numbers v, acc ≤ UINT64_MAX →
      interpretNumbersInJapaneseWayAux fuel lastBase acc numbers = some v →
      v ≤ UINT64_MAX := by
  induction fuel with
  | zero => intro lastBase acc numbers v _ h; simp [interpretNumbersInJapaneseWayAux] at h
  | succ f ih =>
    intro lastBase acc numbers v hacc h
    unfold interpretNumbersInJapaneseWayAux at h
    rcases hred : reduceNumberLessThan10000 numbers with ⟨ocoef, rest⟩
    rw [hred] at h
    cases ocoef with
    | none => exact absurd h (by simp)
    | some coef =>
      cases rest with
      | nil =>
        simp only at h
        exact (addAndCheckOverflow_some hacc h).2
      | cons base rest2 =>
        simp only at h
        split at h
        · exact absurd h (by simp)
        · cases hmul : multiplyAndCheckOverflow coef base with
          | none =>
            simp only [hmul] at h
            exact absurd h (by simp)
          | some delta =>
            simp only [hmul] at h
            cases hadd : addAndCheckOverflow acc delta with
            | none =>
              simp only [hadd] at h
              exact absurd h (by simp)
            | some acc2 =>
              simp only [hadd] at h
              obtain ⟨rfl, hle2⟩ := addAndCheckOverflow_some hacc hadd
              split at h
              · cases h; exact hle2
              · exact ih base _ rest2 v hle2 h

/-- C5. The overflow-checking add and multiply fail exactly when the exact
result exceeds `2^64 - 1`, and a successful normalization never produces a
value outside the unsigned 64-bit range: failure is returned instead of a
wrapped value. -/
theorem c5_overflow_checked :
    (∀ a b : Nat, a ≤ UINT64_MAX → b ≤ UINT64_MAX →
      ((addAndCheckOverflow a b = none ↔ UINT64_MAX < a + b) ∧
       (multiplyAndCheckOverflow a b = none ↔ UINT64_MAX < a * b))) ∧
    (∀ numbers v, normalizeNumbersHelper numbers = some v → v ≤ UINT64_MAX) := by
  constructor
  · intro a b ha _
    exact ⟨addAndCheckOverflow_none_iff ha, multiplyAndCheckOverflow_none_iff a b⟩
  · intro numbers v h
    unfold normalizeNumbersHelper at h
    split at h
    · exact absurd h (by simp)
    · split at h
      · unfold interpretNumbersAsBase10System at h
        rcases hred : reduceLeadingNumbersAsBase10System numbers with ⟨ov, rest⟩
        rw [hred] at h
        cases ov with
        | none => simp at h
        | some v2 =>
          cases rest with
          | nil =>
            simp only [Option.some.injEq] at h
            unfold reduceLeadingNumbersAsBase10System at hred
            have hall : ∀ x ∈ numbers, x < 10 := by
              intro x hx
              exact lt_of_le_of_lt (le_listMax_of_mem hx) (by assumption)
            have hspec := reduceLeadingBase10Aux_spec numbers 0 hall (by simp [UINT64_MAX])
            by_contra hgt
            rcases Nat.lt_or_ge UINT64_MAX (base10ValueFrom 0 numbers) with hlt | hle
            · have h2 := hspec.2 hlt
              rw [hred] at h2
              simp at h2
            · have h1 := hspec.1 hle
              rw [hred] at h1
              simp only [Prod.mk.injEq, Option.some.injEq] at h1
              omega
          | cons x xs => simp at h
      · exact interpretJapaneseAux_le _ _ _ _ _ (by simp [UINT64_MAX]) h

/-- C5, witness. -/
theorem c5_witness :
    addAndCheckOverflow UINT64_MAX 1 = none ∧ (20 : Nat) ≤ UINT64_MAX :=
  ⟨((c5_overflow_checked.1 UINT64_MAX 1 (le_refl _) (by decide)).1).mpr (by decide),
   c5_overflow_checked.2 [2, 10] 20 (by decide)⟩

/-- C4. On a non-empty token sequence with no rank tokens (all values below
10) the reducer returns the left-to-right base-10 concatenation of the
tokens, and fails exactly when an intermediate multiply-by-10 or add (a
prefix value) exceeds the unsigned 64-bit maximum. -/
theorem c4_positional_interpretation :
    ∀ numbers, numbers ≠ [] → (∀ x ∈ numbers, x < 10) →
      normalizeNumbersHelper numbers =
        (if base10Value numbers ≤ UINT64_MAX then some (base10Value numbers) else none) ∧
      (UINT64_MAX < base10Value numbers ↔
        ∃ p q, numbers = p ++ q ∧ p ≠ [] ∧ UINT64_MAX < base10Value p) := by
  intro numbers hne hall
  have hmax : listMax numbers < 10 := listMax_lt (by omega) hall
  have hspec := reduceLeadingBase10Aux_spec numbers 0 hall (by simp [UINT64_MAX])
  rw [← base10Value_eq_from] at hspec
  constructor
  · unfold normalizeNumbersHelper
    rw [if_neg hne, if_pos hmax]
    unfold interpretNumbersAsBase10System reduceLeadingNumbersAsBase10System
    by_cases hle : base10Value numbers ≤ UINT64_MAX
    · rw [if_pos hle, hspec.1 hle]
    · rw [if_neg hle]
      rcases haux : reduceLeadingNumbersAsBase10SystemAux 0 numbers with ⟨ov, rest⟩
      have h1 := hspec.2 (by omega)
      rw [haux] at h1
      simp only at h1
      subst h1
      cases rest <;> rfl
  · constructor
    · intro h
      exact ⟨numbers, [], by simp, hne, h⟩
    · rintro ⟨p, q, rfl, hp, hlt⟩
      have : base10Value p ≤ base10Value (p ++ q) := by
        rw [base10Value_eq_from, base10Value_eq_from, base10ValueFrom_append]
        exact le_base10ValueFrom q _
      omega

/-- C4, witness. -/
theorem c4_witness : normalizeNumbersHelper [5, 4, 3] = some 543 := by
  have h := (c4_positional_interpretation [5, 4, 3] (by decide) (by decide)).1
  simpa using h

/-- C2, counterexample. The claim predicts arabic output "00" for
`NormalizeNumbers("〇〇〇", trim=false)`; the code emits the two retained
leading zeros and then the decimal rendering "0" of the reduced value, so the
output is "000", not "00". -/
theorem c2_counterexample :
    normalizeNumbers "〇〇〇".data false = some ("〇〇〇".data, "000".data) ∧
    "000".data ≠ "00".data := by
  constructor
  · decide
  · decide

/-- C2, amended. With trimming disabled, `NormalizeNumbers` on "〇〇一" emits
arabic output "001", and on "〇〇〇" it emits "000": a prefix of one fewer
zero than the all-zero run of length 3, followed by the rendering "0" of the
reduced value. -/
theorem c2_leading_zero_policy :
    normalizeNumbers "〇〇一".data false = some ("〇〇一".data, "001".data) ∧
    normalizeNumbers "〇〇〇".data false = some ("〇〇〇".data, "000".data) := by
  constructor
  · decide
  · decide

/-- C3. Grammar reduction of the token sequence `[1, 10]` (decoded from
"一十") fails, while reduction of `[2, 10]` (decoded from "二十") succeeds
and yields 20. -/
theorem c3_one_ten_rejected_two_ten_accepted :
    normalizeNumbersHelper [1, 10] = none ∧
    normalizeNumbersHelper [2, 10] = some 20 := by
  constructor
  · decide
  · decide

/-- C6. For every input accepted by `IsDecimalInteger` and parseable as an
unsigned 64-bit integer `n`, `ArabicToOtherRadixes` emits a hexadecimal
result iff `n > 9`, an octal result iff `n > 7`, a binary result iff
`n > 1`, and returns success iff `n > 1`; "255" yields exactly
`0xff`/`0377`/`0b11111111` and "1" yields nothing and fails. -/
theorem c6_other_radixes :
    (∀ s n, isDecimalInteger s = true → simpleAtoiU64 s = some n →
      ((∃ r ∈ (arabicToOtherRadixes s).2, r.style = Style.NUMBER_HEX) ↔ 9 < n) ∧
      ((∃ r ∈ (arabicToOtherRadixes s).2, r.style = Style.NUMBER_OCT) ↔ 7 < n) ∧
      ((∃ r ∈ (arabicToOtherRadixes s).2, r.style = Style.NUMBER_BIN) ↔ 1 < n) ∧
      ((arabicToOtherRadixes s).1 = true ↔ 1 < n)) ∧
    arabicToOtherRadixes "255".data =
      (true, [NumberString.mk "0xff".data "16進数" Style.NUMBER_HEX,
              NumberString.mk "0377".data "8進数" Style.NUMBER_OCT,
              NumberString.mk "0b11111111".data "2進数" Style.NUMBER_BIN]) ∧
    arabicToOtherRadixes "1".data = (false, []) := by
  refine ⟨?_, by decide, by decide⟩
  intro s n hdi hatoi
  have hmain : arabicToOtherRadixes s =
      (decide (n > 1),
       (if n > 9 then [NumberString.mk (hexFormat n) "16進数" Style.NUMBER_HEX] else []) ++
       (if n > 7 then [NumberString.mk (octFormat n) "8進数" Style.NUMBER_OCT] else []) ++
       (if n > 1 then [NumberString.mk (binFormat n) "2進数" Style.NUMBER_BIN] else [])) := by
    unfold arabicToOtherRadixes
    rw [if_neg (by simp [hdi])]
    simp only [hatoi]
  rw [hmain]
  rcases (by omega : n ≤ 1 ∨ (1 < n ∧ n ≤ 7) ∨ (7 < n ∧ n ≤ 9) ∨ 9 < n) with
    h | ⟨h, h2⟩ | ⟨h, h2⟩ | h
  · rw [if_neg (by omega), if_neg (by omega), if_neg (by omega)]
    simp
    omega
  · rw [if_neg (by omega), if_neg (by omega), if_pos (by omega)]
    simp
    omega
  · rw [if_neg (by omega), if_pos (by omega), if_pos (by omega)]
    simp
    omega
  · rw [if_pos (by omega), if_pos (by omega), if_pos (by omega)]
    simp
    omega

/-- C6, witness. -/
theorem c6_witness :
    ∃ r ∈ (arabicToOtherRadixes "255".data).2, r.style = Style.NUMBER_HEX :=
  ((c6_other_radixes.1 "255".data 255 (by decide) (by decide)).1).mpr (by decide)

/-- C7. Every input consisting entirely of '0' characters (length at least
one) makes `ArabicToKanji` succeed with exactly one result: the literal zero
glyph tagged as Daiji. -/
theorem c7_all_zero (s : List Char) (hne : s ≠ []) (hz : ∀ c ∈ s, c = '0') :
    arabicToKanji s = (true, [NumberString.mk ['零'] "大字" Style.NUMBER_OLD_KANJI]) := by
  have hdi : isDecimalInteger s = true := by
    unfold isDecimalInteger
    rw [Bool.and_eq_true, List.all_eq_true]
    constructor
    · simp [List.isEmpty_iff, hne]
    · intro c hc
      rw [hz c hc]
      decide
  have hdrop : s.dropWhile (fun c => c = '0') = [] := by
    rw [List.dropWhile_eq_nil_iff]
    intro x hx
    simp [hz x hx]
  unfold arabicToKanji
  rw [if_neg (by simp [hdi]), if_pos hdrop]

/-- C7, witness. -/
theorem c7_witness :
    arabicToKanji "00".data =
      (true, [NumberString.mk ['零'] "大字" Style.NUMBER_OLD_KANJI]) :=
  c7_all_zero "00".data (by decide) (by decide)

/-- C8. `ArabicToOtherForms` on the 101-character string "1" followed by 100
zeros succeeds with exactly the fixed "Googol" result, although the string
does not parse as an unsigned 64-bit integer. -/
theorem c8_googol :
    arabicToOtherForms kNumGoogol =
      (true, [NumberString.mk "Googol".data "" Style.DEFAULT_STYLE]) ∧
    simpleAtoiU64 kNumGoogol = none := by
  constructor
  · decide
  · decide

/-- C9. `ArabicToOtherForms("13")` yields exactly one result, a circled
number, and no Roman-numeral result: the Roman tables are null at index 13
while the circled table has glyphs at every index from 1 to 50. -/
theorem c9_thirteen_circled_not_roman :
    arabicToOtherForms "13".data =
      (true, [NumberString.mk ['⑬'] "丸数字" Style.NUMBER_CIRCLED]) ∧
    kRomanNumbersCapital.getD 13 none = none ∧
    kRomanNumbersSmall.getD 13 none = none ∧
    (∀ i < 51, 0 < i → (kCircledNumbers.getD i none).isSome = true) := by
  refine ⟨by decide, by decide, by decide, by decide⟩

/-- C10, evaluation at the failing inputs. `IsDecimalNumber` accepts the
empty string and strings that begin with '.', and on those inputs the
integral part obtained by splitting at the first '.' is empty, so
`ArabicToSeparatedArabic` reads `integer[0]` out of bounds (modelled as
`none`). -/
theorem c10_separated_out_of_bounds :
    isDecimalNumber [] = true ∧ arabicToSeparatedArabic [] = none ∧
    isDecimalNumber ".5".data = true ∧ arabicToSeparatedArabic ".5".data = none := by
  refine ⟨by decide, by decide, by decide, by decide⟩

theorem dropWhile_zero_cons {x : Nat} (hx : x ≠ 0) (r : List Nat) :
    (x :: r).dropWhile (fun t => t = 0) = x :: r := by
  rw [List.dropWhile_cons, if_neg (by simp [hx])]

theorem reduceDigitsHelper_nil (b : Nat) : reduceDigitsHelper [] b = (none, []) := rfl

theorem reduceDigitsHelper_fail_high {b x : Nat} (r : List Nat) (hx : 10 ≤ x)
    (hxb : x ≠ b) (hx20 : ¬(b = 10 ∧ x = 20)) :
    reduceDigitsHelper (x :: r) b = (none, x :: r) := by
  unfold reduceDigitsHelper
  rw [dropWhile_zero_cons (by omega)]
  simp only []
  rw [if_neg (by omega), if_neg (not_or.mpr ⟨hxb, hx20⟩)]

theorem reduceDigitsHelper_fail_single {b x : Nat} (h1 : 1 ≤ x) (h9 : x ≤ 9) :
    reduceDigitsHelper [x] b = (none, [x]) := by
  unfold reduceDigitsHelper
  rw [dropWhile_zero_cons (by omega)]
  simp only []
  rw [if_pos (by omega)]

theorem reduceDigitsHelper_fail_pair {b x y : Nat} (r : List Nat) (h1 : 1 ≤ x)
    (h9 : x ≤ 9) (hy : 10 ≤ y) (hcond : y ≠ b ∨ (x = 1 ∧ b ≠ 1000)) :
    reduceDigitsHelper (x :: y :: r) b = (none, x :: y :: r) := by
  unfold reduceDigitsHelper
  rw [dropWhile_zero_cons (by omega)]
  simp only []
  rw [if_pos (by omega : x < 10), if_neg (by omega : ¬ y < 10), if_pos hcond]

theorem reduceDigitsHelper_bare {b : Nat} (r : List Nat) (hb : 10 ≤ b) :
    reduceDigitsHelper (b :: r) b = (some b, r) := by
  unfold reduceDigitsHelper
  rw [dropWhile_zero_cons (by omega)]
  simp only []
  rw [if_neg (by omega), if_pos (by tauto)]

theorem reduceDigitsHelper_twenty (r : List Nat) :
    reduceDigitsHelper (20 :: r) 10 = (some 20, r) := by
  unfold reduceDigitsHelper
  rw [dropWhile_zero_cons (by omega)]
  simp only []
  rw [if_neg (by omega), if_pos (by tauto)]

theorem reduceDigitsHelper_pair {b x : Nat} (r : List Nat) (h1 : 1 ≤ x) (h9 : x ≤ 9)
    (hb : 10 ≤ b) (hx1 : ¬(x = 1 ∧ b ≠ 1000)) :
    reduceDigitsHelper (x :: b :: r) b = (some (x * b), r) := by
  unfold reduceDigitsHelper
  rw [dropWhile_zero_cons (by omega)]
  simp only []
  rw [if_pos (by omega : x < 10), if_neg (by omega : ¬ b < 10),
    if_neg (not_or.mpr ⟨by omega, hx1⟩)]

theorem reduceOnesDigit_nil : reduceOnesDigit [] = (none, []) := rfl

theorem reduceOnesDigit_high {x : Nat} (r : List Nat) (hx : 10 ≤ x) :
    reduceOnesDigit (x :: r) = (none, x :: r) := by
  unfold reduceOnesDigit
  simp only []
  rw [if_pos (by omega)]

theorem reduceOnesDigit_low {x : Nat} (r : List Nat) (hx : x ≤ 9) :
    reduceOnesDigit (x :: r) = (some x, r) := by
  unfold reduceOnesDigit
  simp only []
  rw [if_neg (by omega)]

/-- Shape of the token stream that may legally follow a complete 4-digit
group: nothing, or a big-rank token `≥ 10000`. -/
def restOk (rest : List Nat) : Prop :=
  rest = [] ∨ ∃ b r, rest = b :: r ∧ 10000 ≤ b

theorem pieceTokens_cases (om twenty : Bool) (b d : Nat) :
    (pieceTokens om twenty b d = [] ∧ d = 0) ∨
    (pieceTokens om twenty b d = [20] ∧ d = 2 ∧ b = 10) ∨
    (pieceTokens om twenty b d = [b] ∧ d = 1 ∧ om = true) ∨
    (pieceTokens om twenty b d = [d, b] ∧ d ≠ 0 ∧ ¬(om = true ∧ d = 1)) := by
  unfold pieceTokens
  split_ifs with h1 h2 h3 <;> tauto

theorem rdh_fail_P0 (b : Nat) (hb10 : 10 ≤ b) (hble : b ≤ 1000) (d0 : Nat)
    (h0 : d0 ≤ 9) (rest : List Nat) (hrest : restOk rest) :
    reduceDigitsHelper ((if d0 = 0 then [] else [d0]) ++ rest) b =
      (none, (if d0 = 0 then [] else [d0]) ++ rest) := by
  by_cases hz : d0 = 0
  · simp only [if_pos hz, List.nil_append]
    rcases hrest with rfl | ⟨bb, rr, rfl, hbb⟩
    · exact reduceDigitsHelper_nil b
    · exact reduceDigitsHelper_fail_high rr (by omega) (by omega) (by omega)
  · simp only [if_neg hz, List.singleton_append]
    rcases hrest with rfl | ⟨bb, rr, rfl, hbb⟩
    · exact reduceDigitsHelper_fail_single (by omega) (by omega)
    · exact reduceDigitsHelper_fail_pair rr (by omega) (by omega) (by omega)
        (Or.inl (by omega))

theorem rdh_fail_P1 (b : Nat) (om twenty : Bool) (hb : b = 100 ∨ b = 1000)
    (d1 d0 : Nat) (h1 : d1 ≤ 9) (h0 : d0 ≤ 9) (rest : List Nat) (hrest : restOk rest) :
    reduceDigitsHelper
        (pieceTokens om twenty 10 d1 ++ (if d0 = 0 then [] else [d0]) ++ rest) b =
      (none, pieceTokens om twenty 10 d1 ++ (if d0 = 0 then [] else [d0]) ++ rest) := by
  rcases pieceTokens_cases om twenty 10 d1 with
    ⟨he, hd⟩ | ⟨he, hd, _⟩ | ⟨he, hd, _⟩ | ⟨he, hd, _⟩ <;>
    rw [he] <;> simp only [List.nil_append, List.singleton_append, List.cons_append]
  · exact rdh_fail_P0 b (by omega) (by omega) d0 h0 rest hrest
  · exact reduceDigitsHelper_fail_high _ (by omega) (by omega) (by omega)
  · exact reduceDigitsHelper_fail_high _ (by omega) (by omega) (by omega)
  · exact reduceDigitsHelper_fail_pair _ (by omega) (by omega) (by omega)
      (Or.inl (by omega))

theorem rdh_fail_P2 (om twenty : Bool) (d2 d1 d0 : Nat) (h2 : d2 ≤ 9)
    (h1 : d1 ≤ 9) (h0 : d0 ≤ 9) (rest : List Nat) (hrest : restOk rest) :
    reduceDigitsHelper
        (pieceTokens om twenty 100 d2 ++ pieceTokens om twenty 10 d1 ++
          (if d0 = 0 then [] else [d0]) ++ rest) 1000 =
      (none, pieceTokens om twenty 100 d2 ++ pieceTokens om twenty 10 d1 ++
        (if d0 = 0 then [] else [d0]) ++ rest) := by
  rcases pieceTokens_cases om twenty 100 d2 with
    ⟨he, hd⟩ | ⟨he, hd, hbad⟩ | ⟨he, hd, _⟩ | ⟨he, hd, _⟩ <;>
    rw [he] <;> simp only [List.nil_append, List.singleton_append, List.cons_append]
  · exact rdh_fail_P1 1000 om twenty (Or.inr rfl) d1 d0 h1 h0 rest hrest
  · exact absurd hbad (by omega)
  · exact reduceDigitsHelper_fail_high _ (by omega) (by omega) (by omega)
  · exact reduceDigitsHelper_fail_pair _ (by omega) (by omega) (by omega)
      (Or.inl (by omega))

theorem stage_thousands (om twenty : Bool) (d3 d2 d1 d0 : Nat) (h3 : d3 ≤ 9)
    (h2 : d2 ≤ 9) (h1 : d1 ≤ 9) (h0 : d0 ≤ 9) (rest : List Nat) (hrest : restOk rest) :
    reduceDigitsHelper (segTokens om twenty d3 d2 d1 d0 ++ rest) 1000 =
      ((if d3 = 0 then none else some (1000 * d3)),
        pieceTokens om twenty 100 d2 ++ pieceTokens om twenty 10 d1 ++
          (if d0 = 0 then [] else [d0]) ++ rest) := by
  unfold segTokens
  simp only [List.append_assoc]
  rcases pieceTokens_cases om twenty 1000 d3 with
    ⟨he, hd⟩ | ⟨he, hd, hbad⟩ | ⟨he, hd, _⟩ | ⟨he, hd, _⟩ <;>
    rw [he] <;> simp only [List.nil_append, List.singleton_append, List.cons_append]
  · rw [if_pos hd]
    have := rdh_fail_P2 om twenty d2 d1 d0 h2 h1 h0 rest hrest
    simpa [List.append_assoc] using this
  · exact absurd hbad (by omega)
  · rw [if_neg (show ¬ d3 = 0 by omega)]
    rw [reduceDigitsHelper_bare (b := 1000) _ (by omega)]
    rw [hd, Nat.mul_one]
  · rw [if_neg hd]
    rw [reduceDigitsHelper_pair (b := 1000) (x := d3) _ (by omega) (by omega)
      (by omega) (by simp)]
    rw [Nat.mul_comm]

theorem stage_hundreds (om twenty : Bool) (d2 d1 d0 : Nat)
    (h2 : d2 ≤ 9) (h1 : d1 ≤ 9) (h0 : d0 ≤ 9)
    (hc2 : ¬(d2 = 1 ∧ om = false)) (rest : List Nat) (hrest : restOk rest) :
    reduceDigitsHelper
        (pieceTokens om twenty 100 d2 ++ pieceTokens om twenty 10 d1 ++
          (if d0 = 0 then [] else [d0]) ++ rest) 100 =
      ((if d2 = 0 then none else some (100 * d2)),
        pieceTokens om twenty 10 d1 ++ (if d0 = 0 then [] else [d0]) ++ rest) := by
  rcases pieceTokens_cases om twenty 100 d2 with
    ⟨he, hd⟩ | ⟨he, hd, hbad⟩ | ⟨he, hd, _⟩ | ⟨he, hd, hne1⟩ <;>
    rw [he] <;> simp only [List.nil_append, List.singleton_append, List.cons_append]
  · rw [if_pos hd]
    exact rdh_fail_P1 100 om twenty (Or.inl rfl) d1 d0 h1 h0 rest hrest
  · exact absurd hbad (by omega)
  · rw [if_neg (show ¬ d2 = 0 by omega)]
    rw [reduceDigitsHelper_bare (b := 100) _ (by omega)]
    rw [hd, Nat.mul_one]
  · have hd1 : d2 ≠ 1 := by
      intro hh
      subst hh
      rcases Bool.eq_false_or_eq_true om with ho | ho <;> tauto
    rw [if_neg hd]
    rw [reduceDigitsHelper_pair (b := 100) (x := d2) _ (by omega) (by omega)
      (by omega) (by omega)]
    rw [Nat.mul_comm]

theorem stage_tens (om twenty : Bool) (d1 d0 : Nat) (h1 : d1 ≤ 9) (h0 : d0 ≤ 9)
    (hc1 : ¬(d1 = 1 ∧ om = false)) (rest : List Nat) (hrest : restOk rest) :
    reduceDigitsHelper
        (pieceTokens om twenty 10 d1 ++ (if d0 = 0 then [] else [d0]) ++ rest) 10 =
      ((if d1 = 0 then none else some (10 * d1)),
        (if d0 = 0 then [] else [d0]) ++ rest) := by
  rcases pieceTokens_cases om twenty 10 d1 with
    ⟨he, hd⟩ | ⟨he, hd, _⟩ | ⟨he, hd, _⟩ | ⟨he, hd, hne1⟩ <;>
    rw [he] <;> simp only [List.nil_append, List.singleton_append, List.cons_append]
  · rw [if_pos hd]
    exact rdh_fail_P0 10 (by omega) (by omega) d0 h0 rest hrest
  · rw [if_neg (show ¬ d1 = 0 by omega)]
    rw [reduceDigitsHelper_twenty]
    rw [hd]
  · rw [if_neg (show ¬ d1 = 0 by omega)]
    rw [reduceDigitsHelper_bare (b := 10) _ (by omega)]
    rw [hd, Nat.mul_one]
  · have hd1 : d1 ≠ 1 := by
      intro hh
      subst hh
      rcases Bool.eq_false_or_eq_true om with ho | ho <;> tauto
    rw [if_neg hd]
    rw [reduceDigitsHelper_pair (b := 10) (x := d1) _ (by omega) (by omega)
      (by omega) (by omega)]
    rw [Nat.mul_comm]

theorem stage_ones (d0 : Nat) (h0 : d0 ≤ 9) (rest : List Nat) (hrest : restOk rest) :
    reduceOnesDigit ((if d0 = 0 then [] else [d0]) ++ rest) =
      ((if d0 = 0 then none else some d0), rest) := by
  by_cases hz : d0 = 0
  · simp only [if_pos hz, List.nil_append]
    rcases hrest with rfl | ⟨bb, rr, rfl, hbb⟩
    · exact reduceOnesDigit_nil
    · exact reduceOnesDigit_high rr (by omega)
  · simp only [if_neg hz, List.singleton_append]
    exact reduceOnesDigit_low rest h0

theorem reduceBlock (om twenty : Bool) (d3 d2 d1 d0 : Nat)
    (h3 : d3 ≤ 9) (h2 : d2 ≤ 9) (h1 : d1 ≤ 9) (h0 : d0 ≤ 9)
    (hne : ¬(d3 = 0 ∧ d2 = 0 ∧ d1 = 0 ∧ d0 = 0))
    (hc2 : ¬(d2 = 1 ∧ om = false)) (hc1 : ¬(d1 = 1 ∧ om = false))
    (rest : List Nat) (hrest : restOk rest) :
    reduceNumberLessThan10000 (segTokens om twenty d3 d2 d1 d0 ++ rest) =
      (some (segValue d3 d2 d1 d0), rest) := by
  have e1 := stage_thousands om twenty d3 d2 d1 d0 h3 h2 h1 h0 rest hrest
  have e2 := stage_hundreds om twenty d2 d1 d0 h2 h1 h0 hc2 rest hrest
  have e3 := stage_tens om twenty d1 d0 h1 h0 hc1 rest hrest
  have e4 := stage_ones d0 h0 rest hrest
  have hsnd : rest = [] ∨ rest.headD 0 ≥ 10000 := by
    rcases hrest with rfl | ⟨bb, rr, rfl, hbb⟩
    · exact Or.inl rfl
    · right
      simpa using hbb
  have hsucc : (if d3 = 0 then (none : Option Nat) else some (1000 * d3)).isSome = true ∨
      (if d2 = 0 then (none : Option Nat) else some (100 * d2)).isSome = true ∨
      (if d1 = 0 then (none : Option Nat) else some (10 * d1)).isSome = true ∨
      (if d0 = 0 then (none : Option Nat) else some d0).isSome = true := by
    rcases (show d3 ≠ 0 ∨ d2 ≠ 0 ∨ d1 ≠ 0 ∨ d0 ≠ 0 by tauto) with h | h | h | h
    · exact Or.inl (by simp [h])
    · exact Or.inr (Or.inl (by simp [h]))
    · exact Or.inr (Or.inr (Or.inl (by simp [h])))
    · exact Or.inr (Or.inr (Or.inr (by simp [h])))
  unfold reduceNumberLessThan10000
  simp only [e1, e2, e3, e4]
  rw [if_pos ⟨hsucc, hsnd⟩]
  unfold segValue
  by_cases z3 : d3 = 0 <;> by_cases z2 : d2 = 0 <;> by_cases z1 : d1 = 0 <;>
    by_cases z0 : d0 = 0 <;> simp [z3, z2, z1, z0] <;> omega

theorem char_isDigit_toNat {c : Char} (h : c.isDigit = true) :
    48 ≤ c.toNat ∧ c.toNat ≤ 57 := by
  unfold Char.isDigit at h
  rw [Bool.and_eq_true, decide_eq_true_eq, decide_eq_true_eq] at h
  exact ⟨h.1, h.2⟩

theorem charDigit_le_9 {c : Char} (h : c.isDigit = true) : charDigit c ≤ 9 := by
  have := char_isDigit_toNat h
  unfold charDigit
  omega

theorem addAndCheckOverflow_some_of_le {a b : Nat} (h : a + b ≤ UINT64_MAX) :
    addAndCheckOverflow a b = some (a + b) := by
  unfold addAndCheckOverflow
  rw [if_neg (by omega)]

theorem multiplyAndCheckOverflow_some_of_le {a b : Nat} (h : a * b ≤ UINT64_MAX) :
    multiplyAndCheckOverflow a b = some (a * b) := by
  cases hm : multiplyAndCheckOverflow a b with
  | none =>
    have := (multiplyAndCheckOverflow_none_iff a b).mp hm
    omega
  | some m =>
    obtain ⟨rfl, _⟩ := multiplyAndCheckOverflow_some hm
    rfl

theorem pieceTokens_eq_nil_iff (om twenty : Bool) (b d : Nat) :
    pieceTokens om twenty b d = [] ↔ d = 0 := by
  rcases pieceTokens_cases om twenty b d with
    ⟨he, hd⟩ | ⟨he, hd, _⟩ | ⟨he, hd, _⟩ | ⟨he, hd, _⟩ <;> rw [he] <;> simp <;> omega

theorem segTokens_eq_nil_iff (om twenty : Bool) (d3 d2 d1 d0 : Nat) :
    segTokens om twenty d3 d2 d1 d0 = [] ↔ (d3 = 0 ∧ d2 = 0 ∧ d1 = 0 ∧ d0 = 0) := by
  unfold segTokens
  by_cases h0 : d0 = 0
  · rw [if_pos h0]
    simp [pieceTokens_eq_nil_iff, h0]
  · rw [if_neg h0]
    simp [pieceTokens_eq_nil_iff, h0]

theorem chunksTokens_nil (om twenty : Bool) : chunksTokens om twenty [] = [] := rfl

theorem bigRankTokens_zero : bigRankTokens 0 = [] := rfl

theorem chunksTokens_cons (om twenty : Bool) (seg : List Char)
    (rest : List (List Char)) :
    chunksTokens om twenty (seg :: rest) =
      (if chunkTokens om twenty seg = [] then []
       else chunkTokens om twenty seg ++ bigRankTokens rest.length) ++
        chunksTokens om twenty rest := rfl

theorem chunksValue_cons (seg : List Char) (rest : List (List Char)) :
    chunksValue (seg :: rest) =
      chunkValue seg * 10 ^ (4 * rest.length) + chunksValue rest := rfl

theorem chunkTokens_quad (om twenty : Bool) (c3 c2 c1 c0 : Char) :
    chunkTokens om twenty [c3, c2, c1, c0] =
      segTokens om twenty (charDigit c3) (charDigit c2) (charDigit c1)
        (charDigit c0) := rfl

theorem chunkValue_quad (c3 c2 c1 c0 : Char) :
    chunkValue [c3, c2, c1, c0] =
      segValue (charDigit c3) (charDigit c2) (charDigit c1) (charDigit c0) := rfl

theorem interpretAux_succ (f lastBase acc : Nat) (numbers : List Nat) :
    interpretNumbersInJapaneseWayAux (f + 1) lastBase acc numbers =
      match reduceNumberLessThan10000 numbers with
      | (none, _) => none
      | (some coef, rest) =>
        match rest with
        | [] => addAndCheckOverflow acc coef
        | base :: rest2 =>
          if base ≥ lastBase then none
          else
            match multiplyAndCheckOverflow coef base with
            | none => none
            | some delta =>
              match addAndCheckOverflow acc delta with
              | none => none
              | some acc2 =>
                if rest2 = [] then some acc2
                else interpretNumbersInJapaneseWayAux f base acc2 rest2 := rfl

theorem chunkTokens_nil_value {om twenty : Bool} {seg : List Char}
    (h : chunkTokens om twenty seg = []) : chunkValue seg = 0 := by
  rcases seg with _ | ⟨a, _ | ⟨b, _ | ⟨c, _ | ⟨d, _ | ⟨e, tail⟩⟩⟩⟩⟩ <;> try rfl
  rw [chunkTokens_quad, segTokens_eq_nil_iff] at h
  rw [chunkValue_quad]
  unfold segValue
  omega

theorem chunksTokens_nil_value {om twenty : Bool} : ∀ {chunks : List (List Char)},
    chunksTokens om twenty chunks = [] → chunksValue chunks = 0 := by
  intro chunks
  induction chunks with
  | nil => intro _; rfl
  | cons seg rest ih =>
    intro h
    rw [chunksTokens_cons, List.append_eq_nil] at h
    obtain ⟨h1, h2⟩ := h
    have hseg : chunkTokens om twenty seg = [] := by
      by_contra hc
      rw [if_neg hc] at h1
      rcases hx : chunkTokens om twenty seg with _ | ⟨y, ys⟩
      · exact hc hx
      · rw [hx] at h1
        cases h1
    rw [chunksValue_cons, chunkTokens_nil_value hseg, ih h2]
    ring

/-- Digit-safety of one 4-character group: in the Daiji style (`om = false`)
neither the hundreds nor the tens digit may be 1, since the reducer rejects
`壱百` and `壱拾`. -/
def chunkSafe (om : Bool) (seg : List Char) : Prop :=
  match seg with
  | [_, c2, c1, _] =>
    ¬(charDigit c2 = 1 ∧ om = false) ∧ ¬(charDigit c1 = 1 ∧ om = false)
  | _ => True

instance chunkSafeDecidable (om : Bool) (seg : List Char) :
    Decidable (chunkSafe om seg) :=
  match seg with
  | [_, c2, c1, _] => decidable_of_iff
      (¬(charDigit c2 = 1 ∧ om = false) ∧ ¬(charDigit c1 = 1 ∧ om = false)) Iff.rfl
  | [] => decidable_of_iff True Iff.rfl
  | [_] => decidable_of_iff True Iff.rfl
  | [_, _] => decidable_of_iff True Iff.rfl
  | [_, _, _] => decidable_of_iff True Iff.rfl
  | _ :: _ :: _ :: _ :: _ :: _ => decidable_of_iff True Iff.rfl

theorem interpretChunks (om twenty : Bool) : ∀ (chunks : List (List Char)),
    (∀ seg ∈ chunks, seg.length = 4) →
    (∀ seg ∈ chunks, ∀ c ∈ seg, c.isDigit = true) →
    (∀ seg ∈ chunks, chunkSafe om seg) →
    chunksTokens om twenty chunks ≠ [] →
    ∀ fuel acc lastBase,
      (chunksTokens om twenty chunks).length < fuel →
      10 ^ (4 * (chunks.length - 1)) < lastBase →
      acc + chunksValue chunks ≤ UINT64_MAX →
      interpretNumbersInJapaneseWayAux fuel lastBase acc
        (chunksTokens om twenty chunks) = some (acc + chunksValue chunks) := by
  intro chunks
  induction chunks with
  | nil =>
    intro _ _ _ hnz
    exact absurd rfl hnz
  | cons seg rest ih =>
    intro hlen hdig hsafe hnz fuel acc lastBase hfuel hlast hacc
    obtain ⟨c3, c2, c1, c0, rfl⟩ : ∃ a b c d, seg = [a, b, c, d] := by
      have h4 := hlen seg (List.mem_cons_self seg rest)
      rcases seg with _ | ⟨a, _ | ⟨b, _ | ⟨c, _ | ⟨d, _ | _⟩⟩⟩⟩ <;> simp at h4
      exact ⟨a, b, c, d, rfl⟩
    have hd3 : charDigit c3 ≤ 9 :=
      charDigit_le_9 (hdig _ (List.mem_cons_self _ _) c3 (by simp))
    have hd2 : charDigit c2 ≤ 9 :=
      charDigit_le_9 (hdig _ (List.mem_cons_self _ _) c2 (by simp))
    have hd1 : charDigit c1 ≤ 9 :=
      charDigit_le_9 (hdig _ (List.mem_cons_self _ _) c1 (by simp))
    have hd0 : charDigit c0 ≤ 9 :=
      charDigit_le_9 (hdig _ (List.mem_cons_self _ _) c0 (by simp))
    obtain ⟨hs2, hs1⟩ : ¬(charDigit c2 = 1 ∧ om = false) ∧
        ¬(charDigit c1 = 1 ∧ om = false) :=
      hsafe _ (List.mem_cons_self _ _)
    by_cases hz : chunkTokens om twenty [c3, c2, c1, c0] = []
    · have htok : chunksTokens om twenty ([c3, c2, c1, c0] :: rest) =
          chunksTokens om twenty rest := by
        rw [chunksTokens_cons, if_pos hz, List.nil_append]
      have hval : chunksValue ([c3, c2, c1, c0] :: rest) = chunksValue rest := by
        rw [chunksValue_cons, chunkTokens_nil_value hz]
        ring
      rw [htok, hval]
      rw [htok] at hnz hfuel
      rw [hval] at hacc
      refine ih (fun s hs => hlen s (List.mem_cons_of_mem _ hs))
        (fun s hs => hdig s (List.mem_cons_of_mem _ hs))
        (fun s hs => hsafe s (List.mem_cons_of_mem _ hs)) hnz fuel acc lastBase hfuel ?_ hacc
      calc 10 ^ (4 * (rest.length - 1)) ≤ 10 ^ (4 * ((rest.length + 1) - 1)) := by
            apply Nat.pow_le_pow_right (by omega)
            omega
        _ < lastBase := by simpa using hlast
    · have hne : ¬(charDigit c3 = 0 ∧ charDigit c2 = 0 ∧ charDigit c1 = 0 ∧
          charDigit c0 = 0) := by
        intro hall
        exact hz (by rw [chunkTokens_quad, segTokens_eq_nil_iff]; exact hall)
      cases fuel with
      | zero => omega
      | succ f =>
        rcases Nat.eq_zero_or_pos rest.length with hrl | hrl
        · -- last group: no big-rank token follows
          obtain rfl : rest = [] := List.length_eq_zero.mp hrl
          have htok2 : chunksTokens om twenty ([c3, c2, c1, c0] :: ([] : List (List Char))) =
              segTokens om twenty (charDigit c3) (charDigit c2) (charDigit c1)
                (charDigit c0) := by
            rw [chunksTokens_cons, if_neg hz, chunkTokens_quad]
            show _ ++ bigRankTokens 0 ++ chunksTokens om twenty [] = _
            rw [bigRankTokens_zero, chunksTokens_nil, List.append_nil, List.append_nil]
          rw [htok2]
          have hred := reduceBlock om twenty _ _ _ _ hd3 hd2 hd1 hd0 hne hs2 hs1 []
            (Or.inl rfl)
          rw [List.append_nil] at hred
          rw [interpretAux_succ]
          simp only [hred]
          have hval : chunksValue ([c3, c2, c1, c0] :: ([] : List (List Char))) =
              segValue (charDigit c3) (charDigit c2) (charDigit c1) (charDigit c0) := by
            rw [chunksValue_cons, chunkValue_quad]
            simp [chunksValue]
          rw [hval] at hacc ⊢
          exact addAndCheckOverflow_some_of_le hacc
        · -- a big-rank token follows
          have hbig : bigRankTokens rest.length = [10 ^ (4 * rest.length)] := by
            unfold bigRankTokens
            rw [if_neg (by omega)]
          have htok2 : chunksTokens om twenty ([c3, c2, c1, c0] :: rest) =
              segTokens om twenty (charDigit c3) (charDigit c2) (charDigit c1)
                (charDigit c0) ++
                (10 ^ (4 * rest.length) :: chunksTokens om twenty rest) := by
            rw [chunksTokens_cons, if_neg hz, chunkTokens_quad, hbig]
            simp
          have hbase : (10:Nat) ^ 4 ≤ 10 ^ (4 * rest.length) :=
            Nat.pow_le_pow_right (by omega) (by omega)
          have hred := reduceBlock om twenty _ _ _ _ hd3 hd2 hd1 hd0 hne hs2 hs1
            (10 ^ (4 * rest.length) :: chunksTokens om twenty rest)
            (Or.inr ⟨_, _, rfl, by omega⟩)
          have hvalcons : chunksValue ([c3, c2, c1, c0] :: rest) =
              segValue (charDigit c3) (charDigit c2) (charDigit c1) (charDigit c0) *
                10 ^ (4 * rest.length) + chunksValue rest := by
            rw [chunksValue_cons, chunkValue_quad]
          have hmulle : segValue (charDigit c3) (charDigit c2) (charDigit c1)
              (charDigit c0) * 10 ^ (4 * rest.length) ≤ UINT64_MAX := by
            rw [hvalcons] at hacc
            omega
          have hlast2 : 10 ^ (4 * rest.length) < lastBase := by
            simpa using hlast
          have haccle : acc + segValue (charDigit c3) (charDigit c2) (charDigit c1)
              (charDigit c0) * 10 ^ (4 * rest.length) ≤ UINT64_MAX := by
            rw [hvalcons] at hacc
            omega
          rw [htok2, interpretAux_succ]
          simp only [hred]
          rw [if_neg (by omega)]
          simp only [multiplyAndCheckOverflow_some_of_le hmulle,
            addAndCheckOverflow_some_of_le haccle]
          by_cases hrest2 : chunksTokens om twenty rest = []
          · rw [if_pos hrest2]
            rw [hvalcons, chunksTokens_nil_value hrest2]
            norm_num
          · rw [if_neg hrest2]
            have hih := ih (fun s hs => hlen s (List.mem_cons_of_mem _ hs))
              (fun s hs => hdig s (List.mem_cons_of_mem _ hs))
              (fun s hs => hsafe s (List.mem_cons_of_mem _ hs)) hrest2 f
              (acc + segValue (charDigit c3) (charDigit c2) (charDigit c1)
                (charDigit c0) * 10 ^ (4 * rest.length))
              (10 ^ (4 * rest.length)) ?_ ?_ ?_
            · rw [hih, hvalcons]
              congr 1
              ring
            · rw [htok2] at hfuel
              have hseg1 : 1 ≤ (segTokens om twenty (charDigit c3) (charDigit c2)
                  (charDigit c1) (charDigit c0)).length := by
                rcases he : segTokens om twenty (charDigit c3) (charDigit c2)
                    (charDigit c1) (charDigit c0) with _ | ⟨y, ys⟩
                · rw [segTokens_eq_nil_iff] at he
                  exact absurd he hne
                · simp
              simp only [List.length_append, List.length_cons] at hfuel
              omega
            · apply Nat.pow_lt_pow_right (by omega)
              omega
            · rw [hvalcons] at hacc
              omega

theorem toDigitsRevFuel_succ (f n : Nat) :
    toDigitsRevFuel (f + 1) n =
      if n = 0 then [] else n % 10 :: toDigitsRevFuel f (n / 10) := rfl

theorem toDigitsRevFuel_spec : ∀ fuel n, n < 10 ^ fuel →
    ofDigitsRev (toDigitsRevFuel fuel n) = n ∧ (∀ d ∈ toDigitsRevFuel fuel n, d ≤ 9) := by
  intro fuel
  induction fuel with
  | zero =>
    intro n hn
    simp only [pow_zero, Nat.lt_one_iff] at hn
    subst hn
    exact ⟨rfl, by simp [toDigitsRevFuel]⟩
  | succ f ih =>
    intro n hn
    by_cases hz : n = 0
    · subst hz
      exact ⟨rfl, by simp [toDigitsRevFuel]⟩
    · have hstep : toDigitsRevFuel (f + 1) n = n % 10 :: toDigitsRevFuel f (n / 10) := by
        rw [toDigitsRevFuel_succ, if_neg hz]
      have hdiv : n / 10 < 10 ^ f := by
        rw [pow_succ] at hn
        omega
      obtain ⟨ihv, ihd⟩ := ih (n / 10) hdiv
      rw [hstep]
      constructor
      · unfold ofDigitsRev
        rw [ihv]
        omega
      · intro d hd
        rcases List.mem_cons.mp hd with rfl | hd2
        · omega
        · exact ihd d hd2

theorem toDigitsRevFuel_length : ∀ fuel k n, n < 10 ^ k → k ≤ fuel →
    (toDigitsRevFuel fuel n).length ≤ k := by
  intro fuel
  induction fuel with
  | zero =>
    intro k n _ _
    simp [toDigitsRevFuel]
  | succ f ih =>
    intro k n hn hk
    by_cases hz : n = 0
    · subst hz
      simp [toDigitsRevFuel]
    · have hk0 : k ≠ 0 := by
        intro h
        subst h
        simp only [pow_zero, Nat.lt_one_iff] at hn
        exact hz hn
      have hstep : toDigitsRevFuel (f + 1) n = n % 10 :: toDigitsRevFuel f (n / 10) := by
        rw [toDigitsRevFuel_succ, if_neg hz]
      have hdiv : n / 10 < 10 ^ (k - 1) := by
        have : 10 ^ k = 10 * 10 ^ (k - 1) := by
          rw [← pow_succ']
          congr 1
          omega
        rw [this] at hn
        omega
      rw [hstep]
      simp only [List.length_cons]
      have := ih (k - 1) (n / 10) hdiv (by omega)
      omega

theorem base10Value_reverse : ∀ ds : List Nat, base10Value ds.reverse = ofDigitsRev ds := by
  intro ds
  induction ds with
  | nil => rfl
  | cons d rest ih =>
    rw [List.reverse_cons, base10Value_eq_from, base10ValueFrom_append]
    rw [← base10Value_eq_from, ih]
    show ofDigitsRev rest * 10 + d = d + 10 * ofDigitsRev rest
    ring

theorem map_id_of_mem {α : Type} {l : List α} {f : α → α} (h : ∀ a ∈ l, f a = a) :
    l.map f = l := by
  induction l with
  | nil => rfl
  | cons x xs ih =>
    simp only [List.map_cons]
    rw [h x (by simp), ih (fun a ha => h a (by simp [ha]))]

/-- Decimal value of a digit-character string (the claim-level reading of
`str(n)`). -/
def charsValue (l : List Char) : Nat := base10Value (l.map charDigit)

theorem charDigit_digitChar {d : Nat} (hd : d ≤ 9) : charDigit (digitChar d) = d := by
  interval_cases d <;> decide

theorem digitChar_isDigit {d : Nat} (hd : d ≤ 9) : (digitChar d).isDigit = true := by
  interval_cases d <;> decide

theorem strOfNat_pos (n : Nat) (hn : 1 ≤ n) :
    strOfNat n = (toDigitsRev n).reverse.map digitChar := by
  unfold strOfNat
  rw [if_neg (by omega)]

theorem charsValue_strOfNat (n : Nat) (hn : n < 10 ^ 64) :
    charsValue (strOfNat n) = n := by
  by_cases hz : n = 0
  · subst hz
    rfl
  · rw [strOfNat_pos n (by omega)]
    unfold charsValue
    rw [List.map_map]
    have hmap : (toDigitsRev n).reverse.map (charDigit ∘ digitChar) =
        (toDigitsRev n).reverse := by
      apply map_id_of_mem
      intro d hd
      show charDigit (digitChar d) = d
      have hd9 : d ≤ 9 := by
        have := (toDigitsRevFuel_spec 64 n hn).2
        exact this d (List.mem_reverse.mp hd)
      exact charDigit_digitChar hd9
    rw [hmap, base10Value_reverse]
    exact (toDigitsRevFuel_spec 64 n hn).1

theorem toDigitsRevFuel_digits : ∀ fuel n, ∀ d ∈ toDigitsRevFuel fuel n, d ≤ 9 := by
  intro fuel
  induction fuel with
  | zero => intro n d hd; simp [toDigitsRevFuel] at hd
  | succ f ih =>
    intro n d hd
    by_cases hz : n = 0
    · subst hz
      simp [toDigitsRevFuel] at hd
    · have hstep : toDigitsRevFuel (f + 1) n = n % 10 :: toDigitsRevFuel f (n / 10) := by
        rw [toDigitsRevFuel_succ, if_neg hz]
      rw [hstep] at hd
      rcases List.mem_cons.mp hd with rfl | hd2
      · omega
      · exact ih (n / 10) d hd2

theorem strOfNat_isDigit (n : Nat) : ∀ c ∈ strOfNat n, c.isDigit = true := by
  intro c hc
  by_cases hz : n = 0
  · subst hz
    rw [show strOfNat 0 = ['0'] from rfl] at hc
    simp only [List.mem_singleton] at hc
    subst hc
    decide
  · rw [strOfNat_pos n (by omega)] at hc
    rw [List.mem_map] at hc
    obtain ⟨d, hd, rfl⟩ := hc
    exact digitChar_isDigit (toDigitsRevFuel_digits 64 n d (List.mem_reverse.mp hd))

theorem strOfNat_length (n : Nat) (hn : n < 10 ^ 20) : (strOfNat n).length ≤ 20 := by
  by_cases hz : n = 0
  · subst hz
    decide
  · rw [strOfNat_pos n (by omega)]
    rw [List.length_map, List.length_reverse]
    exact toDigitsRevFuel_length 64 20 n hn (by omega)

theorem strOfNat_ne_nil (n : Nat) : strOfNat n ≠ [] := by
  by_cases hz : n = 0
  · subst hz
    decide
  · rw [strOfNat_pos n (by omega)]
    have hstep : toDigitsRevFuel 64 n = n % 10 :: toDigitsRevFuel 63 (n / 10) := by
      rw [show (64:Nat) = 63 + 1 from rfl, toDigitsRevFuel_succ, if_neg hz]
    unfold toDigitsRev
    rw [hstep]
    intro h
    have := congrArg List.length h
    simp at this

theorem chunk4_cons4 (a b c d : Char) (r : List Char) :
    chunk4 (a :: b :: c :: d :: r) = [a, b, c, d] :: chunk4 r := rfl

theorem chunk4_spec : ∀ m (l : List Char), l.length = 4 * m →
    (chunk4 l).flatten = l ∧ (∀ seg ∈ chunk4 l, seg.length = 4) ∧
    (∀ seg ∈ chunk4 l, ∀ c ∈ seg, c ∈ l) ∧ (chunk4 l).length = m := by
  intro m
  induction m with
  | zero =>
    intro l hl
    have : l = [] := List.length_eq_zero.mp (by omega)
    subst this
    exact ⟨rfl, by simp [chunk4], by simp [chunk4], rfl⟩
  | succ k ih =>
    intro l hl
    obtain ⟨a, b, c, d, r, rfl⟩ :
        ∃ a b c d r, l = a :: b :: c :: d :: r := by
      rcases l with _ | ⟨a, _ | ⟨b, _ | ⟨c, _ | ⟨d, r⟩⟩⟩⟩ <;> simp at hl <;> try omega
      exact ⟨a, b, c, d, r, rfl⟩
    have hr : r.length = 4 * k := by
      simp only [List.length_cons] at hl
      omega
    obtain ⟨ihf, ihl, ihm, ihc⟩ := ih r hr
    rw [chunk4_cons4]
    refine ⟨by simp [ihf], ?_, ?_, by simp [ihc]⟩
    · intro seg hseg
      rcases List.mem_cons.mp hseg with rfl | hs
      · rfl
      · exact ihl seg hs
    · intro seg hseg x hx
      rcases List.mem_cons.mp hseg with rfl | hs
      · simp only [List.mem_cons] at hx
        simp [hx]
        tauto
      · have := ihm seg hs x hx
        simp [this]

theorem base10ValueFrom_eq : ∀ (l : List Nat) (a : Nat),
    base10ValueFrom a l = a * 10 ^ l.length + base10ValueFrom 0 l := by
  intro l
  induction l with
  | nil => intro a; simp [base10ValueFrom_nil]
  | cons d rest ih =>
    intro a
    rw [base10ValueFrom_cons, base10ValueFrom_cons]
    rw [ih (a * 10 + d), ih (0 * 10 + d)]
    simp only [List.length_cons]
    ring

theorem chunkValue_charsValue (seg : List Char) (h4 : seg.length = 4) :
    chunkValue seg = charsValue seg := by
  obtain ⟨a, b, c, d, rfl⟩ : ∃ a b c d, seg = [a, b, c, d] := by
    rcases seg with _ | ⟨a, _ | ⟨b, _ | ⟨c, _ | ⟨d, _ | _⟩⟩⟩⟩ <;> simp at h4
    exact ⟨a, b, c, d, rfl⟩
  rw [chunkValue_quad]
  unfold charsValue segValue
  show _ = base10Value [charDigit a, charDigit b, charDigit c, charDigit d]
  unfold base10Value
  simp [List.foldl]
  ring

theorem flatten_length_of_quads : ∀ (cs : List (List Char)),
    (∀ s ∈ cs, s.length = 4) → cs.flatten.length = 4 * cs.length := by
  intro cs
  induction cs with
  | nil => intro _; rfl
  | cons s r ihr =>
    intro hh
    rw [List.flatten_cons, List.length_append,
      ihr (fun x hx => hh x (List.mem_cons_of_mem _ hx)),
      hh s (List.mem_cons_self _ _)]
    simp only [List.length_cons]
    ring

theorem chunksValue_charsValue : ∀ (chunks : List (List Char)),
    (∀ seg ∈ chunks, seg.length = 4) →
    chunksValue chunks = charsValue chunks.flatten := by
  intro chunks
  induction chunks with
  | nil => intro _; rfl
  | cons seg rest ih =>
    intro h4
    have hlen : (rest.flatten.map charDigit).length = 4 * rest.length := by
      rw [List.length_map]
      exact flatten_length_of_quads rest (fun x hx => h4 x (List.mem_cons_of_mem _ hx))
    rw [chunksValue_cons, List.flatten_cons]
    unfold charsValue
    rw [List.map_append, base10Value_eq_from, base10ValueFrom_append,
      base10ValueFrom_eq, hlen]
    rw [ih (fun x hx => h4 x (List.mem_cons_of_mem _ hx)),
      chunkValue_charsValue seg (h4 seg (List.mem_cons_self _ _))]
    unfold charsValue
    rw [base10Value_eq_from, base10Value_eq_from]

/-- Characters rendered for one digit position of a 4-digit group in the two
Kanji styles (the `leading` flag is irrelevant there, since zeros render
nothing whether leading or not). -/
def kanjiPieceChars (st : Style) (i : Nat) (c : Char) : List Char :=
  if c = '0' then []
  else
    (if st = Style.NUMBER_OLD_KANJI ∨ i = 4 - 1 ∨ c ≠ '1' then
       tableLookup (kanjiVariationDigits st) (c.toNat - 48)
     else []) ++ tableLookup (kanjiVariationRanks st) (4 - i)

/-- Concatenation of the per-position pieces from position `i` on. -/
def kanjiPieces (st : Style) : List Char → Nat → List Char
  | [], _ => []
  | c :: rest, i => kanjiPieceChars st i c ++ kanjiPieces st rest (i + 1)

theorem segmentResultAux_cons (st : Style) (c : Char) (rest : List Char)
    (i : Nat) (leading : Bool) :
    segmentResultAux st (c :: rest) i leading =
      (if leading ∧ c = '0' then segmentResultAux st rest (i + 1) true
       else if st = Style.NUMBER_ARABIC_AND_KANJI_HALFWIDTH ∨
               st = Style.NUMBER_ARABIC_AND_KANJI_FULLWIDTH then
         tableLookup (kanjiVariationDigits st) (c.toNat - 48) ++
           segmentResultAux st rest (i + 1) false
       else if c = '0' then segmentResultAux st rest (i + 1) false
       else
         ((if st = Style.NUMBER_OLD_KANJI ∨ i = 4 - 1 ∨ c ≠ '1' then
             tableLookup (kanjiVariationDigits st) (c.toNat - 48)
           else []) ++ tableLookup (kanjiVariationRanks st) (4 - i)) ++
           segmentResultAux st rest (i + 1) false) := rfl

theorem kanjiPieces_cons (st : Style) (c : Char) (rest : List Char) (i : Nat) :
    kanjiPieces st (c :: rest) i = kanjiPieceChars st i c ++ kanjiPieces st rest (i + 1) := rfl

theorem segmentResultAux_eq_pieces (st : Style)
    (hst : st = Style.NUMBER_KANJI ∨ st = Style.NUMBER_OLD_KANJI) :
    ∀ (l : List Char) (i : Nat) (leading : Bool),
      segmentResultAux st l i leading = kanjiPieces st l i := by
  intro l
  induction l with
  | nil => intro i leading; rfl
  | cons c rest ih =>
    intro i leading
    have hnab : ¬(st = Style.NUMBER_ARABIC_AND_KANJI_HALFWIDTH ∨
        st = Style.NUMBER_ARABIC_AND_KANJI_FULLWIDTH) := by
      rcases hst with rfl | rfl <;> decide
    rw [segmentResultAux_cons, kanjiPieces_cons]
    by_cases hc0 : c = '0'
    · cases leading with
      | true =>
        rw [if_pos ⟨rfl, hc0⟩, ih]
        unfold kanjiPieceChars
        rw [if_pos hc0, List.nil_append]
      | false =>
        rw [if_neg (by simp), if_neg hnab, if_pos hc0, ih]
        unfold kanjiPieceChars
        rw [if_pos hc0, List.nil_append]
    · rw [if_neg (by simp [hc0]), if_neg hnab, if_neg hc0, ih]
      unfold kanjiPieceChars
      rw [if_neg hc0]

/-- The ones-rank word attached to digit position `i` of a group. -/
def rankOf (i : Nat) : Nat :=
  if i = 0 then 1000 else if i = 1 then 100 else 10

theorem char_eq_digitChar {c : Char} (h : c.isDigit = true) :
    digitChar (charDigit c) = c := by
  have h1 := char_isDigit_toNat h
  unfold digitChar charDigit
  have h2 : 48 + (c.toNat - 48) = c.toNat := by omega
  rw [h2]
  exact Char.ofNat_toNat c

theorem pieceChars_spec (st : Style) (om : Bool)
    (hst : (st = Style.NUMBER_KANJI ∧ om = true) ∨
      (st = Style.NUMBER_OLD_KANJI ∧ om = false))
    (i : Nat) (hi : i ≤ 3) (d : Nat) (hd : d ≤ 9) :
    ((kanjiPieceChars st i (digitChar d)).map tokValue =
      (if i ≤ 2 then pieceTokens om false (rankOf i) d
       else if d = 0 then [] else [d])) ∧
    (∀ ch ∈ kanjiPieceChars st i (digitChar d),
      (kanjiNumberToArabicNumber ch).isSome = true) ∧
    (kanjiPieceChars st i (digitChar d) = [] ↔ d = 0) := by
  rcases hst with ⟨rfl, rfl⟩ | ⟨rfl, rfl⟩ <;> interval_cases i <;> interval_cases d <;>
    exact ⟨by decide, by decide, by decide⟩

theorem biggerRank_spec (st : Style)
    (hst : st = Style.NUMBER_KANJI ∨ st = Style.NUMBER_OLD_KANJI)
    (k : Nat) (hk : k ≤ 4) :
    (tableLookup (kanjiVariationBiggerRanks st) k).map tokValue = bigRankTokens k ∧
    (∀ ch ∈ tableLookup (kanjiVariationBiggerRanks st) k,
      (kanjiNumberToArabicNumber ch).isSome = true) := by
  rcases hst with rfl | rfl <;> interval_cases k <;> exact ⟨by decide, by decide⟩

theorem segmentResult_spec (st : Style) (om : Bool)
    (hst : (st = Style.NUMBER_KANJI ∧ om = true) ∨
      (st = Style.NUMBER_OLD_KANJI ∧ om = false))
    (c3 c2 c1 c0 : Char) (h3 : c3.isDigit = true) (h2 : c2.isDigit = true)
    (h1 : c1.isDigit = true) (h0 : c0.isDigit = true) :
    ((segmentResult st [c3, c2, c1, c0]).map tokValue =
      chunkTokens om false [c3, c2, c1, c0]) ∧
    (∀ ch ∈ segmentResult st [c3, c2, c1, c0],
      (kanjiNumberToArabicNumber ch).isSome = true) ∧
    (segmentResult st [c3, c2, c1, c0] = [] ↔
      chunkTokens om false [c3, c2, c1, c0] = []) := by
  have hkst : st = Style.NUMBER_KANJI ∨ st = Style.NUMBER_OLD_KANJI := by
    rcases hst with ⟨rfl, _⟩ | ⟨rfl, _⟩ <;> simp
  have hsr : segmentResult st [c3, c2, c1, c0] =
      kanjiPieceChars st 0 c3 ++ (kanjiPieceChars st 1 c2 ++
        (kanjiPieceChars st 2 c1 ++ (kanjiPieceChars st 3 c0 ++ []))) := by
    unfold segmentResult
    rw [segmentResultAux_eq_pieces st hkst]
    rfl
  have e3 := pieceChars_spec st om hst 0 (by omega) (charDigit c3) (charDigit_le_9 h3)
  have e2 := pieceChars_spec st om hst 1 (by omega) (charDigit c2) (charDigit_le_9 h2)
  have e1 := pieceChars_spec st om hst 2 (by omega) (charDigit c1) (charDigit_le_9 h1)
  have e0 := pieceChars_spec st om hst 3 (by omega) (charDigit c0) (charDigit_le_9 h0)
  rw [char_eq_digitChar h3] at e3
  rw [char_eq_digitChar h2] at e2
  rw [char_eq_digitChar h1] at e1
  rw [char_eq_digitChar h0] at e0
  have hct : chunkTokens om false [c3, c2, c1, c0] =
      pieceTokens om false 1000 (charDigit c3) ++
        (pieceTokens om false 100 (charDigit c2) ++
          (pieceTokens om false 10 (charDigit c1) ++
            (if charDigit c0 = 0 then [] else [charDigit c0]))) := by
    rw [chunkTokens_quad]
    unfold segTokens
    simp [List.append_assoc]
  refine ⟨?_, ?_, ?_⟩
  · rw [hsr, hct]
    simp only [List.map_append, List.append_nil]
    rw [e3.1, e2.1, e1.1, e0.1]
    norm_num [rankOf]
  · rw [hsr]
    intro ch hch
    simp only [List.append_nil, List.mem_append] at hch
    rcases hch with h | h | h | h
    · exact e3.2.1 ch h
    · exact e2.2.1 ch h
    · exact e1.2.1 ch h
    · exact e0.2.1 ch h
  · rw [hsr, hct]
    simp only [List.append_nil, List.append_eq_nil]
    rw [e3.2.2, e2.2.2, e1.2.2, e0.2.2]
    simp only [pieceTokens_eq_nil_iff]
    constructor
    · rintro ⟨a, b, c, d⟩
      exact ⟨a, b, c, by rw [if_pos d]⟩
    · rintro ⟨a, b, c, d⟩
      refine ⟨a, b, c, ?_⟩
      by_contra hz
      rw [if_neg hz] at d
      cases d

theorem renderRanked_cons (st : Style) (seg : List Char) (rest : List (List Char)) :
    renderRanked st (seg :: rest) =
      (if segmentResult st seg = [] then []
       else segmentResult st seg ++
         tableLookup (kanjiVariationBiggerRanks st) rest.length) ++
        renderRanked st rest := rfl

theorem renderRanked_spec (st : Style) (om : Bool)
    (hst : (st = Style.NUMBER_KANJI ∧ om = true) ∨
      (st = Style.NUMBER_OLD_KANJI ∧ om = false)) :
    ∀ chunks : List (List Char), chunks.length ≤ 5 →
      (∀ seg ∈ chunks, seg.length = 4) →
      (∀ seg ∈ chunks, ∀ c ∈ seg, c.isDigit = true) →
      ((renderRanked st chunks).map tokValue = chunksTokens om false chunks) ∧
      (∀ ch ∈ renderRanked st chunks,
        (kanjiNumberToArabicNumber ch).isSome = true) := by
  have hkst : st = Style.NUMBER_KANJI ∨ st = Style.NUMBER_OLD_KANJI := by
    rcases hst with ⟨rfl, _⟩ | ⟨rfl, _⟩ <;> simp
  intro chunks
  induction chunks with
  | nil => intro _ _ _; exact ⟨rfl, by simp [renderRanked]⟩
  | cons seg rest ih =>
    intro hlen5 hlen4 hdig
    obtain ⟨c3, c2, c1, c0, rfl⟩ : ∃ a b c d, seg = [a, b, c, d] := by
      have h4 := hlen4 seg (List.mem_cons_self seg rest)
      rcases seg with _ | ⟨a, _ | ⟨b, _ | ⟨c, _ | ⟨d, _ | _⟩⟩⟩⟩ <;> simp at h4
      exact ⟨a, b, c, d, rfl⟩
    have hd := hdig _ (List.mem_cons_self _ _)
    have hseg := segmentResult_spec st om hst c3 c2 c1 c0
      (hd c3 (by simp)) (hd c2 (by simp)) (hd c1 (by simp)) (hd c0 (by simp))
    have hbig := biggerRank_spec st hkst rest.length (by
      simp only [List.length_cons] at hlen5
      omega)
    obtain ⟨ihm, ihs⟩ := ih (by simp only [List.length_cons] at hlen5; omega)
      (fun s hs => hlen4 s (List.mem_cons_of_mem _ hs))
      (fun s hs => hdig s (List.mem_cons_of_mem _ hs))
    rw [renderRanked_cons, chunksTokens_cons]
    by_cases hz : segmentResult st [c3, c2, c1, c0] = []
    · have hzt : chunkTokens om false [c3, c2, c1, c0] = [] := hseg.2.2.mp hz
      rw [if_pos hz, if_pos hzt, List.nil_append, List.nil_append]
      exact ⟨ihm, ihs⟩
    · have hzt : ¬ chunkTokens om false [c3, c2, c1, c0] = [] := by
        intro hc
        exact hz (hseg.2.2.mpr hc)
      rw [if_neg hz, if_neg hzt]
      constructor
      · simp only [List.map_append]
        rw [hseg.1, hbig.1, ihm]
      · intro ch hch
        simp only [List.mem_append] at hch
        rcases hch with (h | h) | h
        · exact hseg.2.1 ch h
        · exact hbig.2 ch h
        · exact ihs ch h

theorem pieceTokens_mem_ge (om twenty : Bool) (b d : Nat) (hb : 10 ≤ b)
    (hne : pieceTokens om twenty b d ≠ []) :
    ∃ t ∈ pieceTokens om twenty b d, 10 ≤ t := by
  rcases pieceTokens_cases om twenty b d with
    ⟨he, _⟩ | ⟨he, _, _⟩ | ⟨he, _, _⟩ | ⟨he, _, _⟩
  · exact absurd he hne
  · exact ⟨20, by rw [he]; simp, by omega⟩
  · exact ⟨b, by rw [he]; simp, hb⟩
  · exact ⟨b, by rw [he]; simp, hb⟩

theorem pieceTokens_empty_of_small (om twenty : Bool) (b d : Nat) (hb : 10 ≤ b)
    (hsmall : ∀ t ∈ pieceTokens om twenty b d, t < 10) :
    pieceTokens om twenty b d = [] ∧ d = 0 := by
  by_cases hne : pieceTokens om twenty b d = []
  · exact ⟨hne, (pieceTokens_eq_nil_iff om twenty b d).mp hne⟩
  · obtain ⟨t, ht, hge⟩ := pieceTokens_mem_ge om twenty b d hb hne
    have := hsmall t ht
    omega

theorem chunksTokens_small (om twenty : Bool) : ∀ chunks : List (List Char),
    (∀ seg ∈ chunks, seg.length = 4) →
    (∀ t ∈ chunksTokens om twenty chunks, t < 10) →
    (chunksTokens om twenty chunks = [] ∧ chunksValue chunks = 0) ∨
    (∃ d, 1 ≤ d ∧ d ≤ 9 ∧ chunksTokens om twenty chunks = [d] ∧
      chunksValue chunks = d) := by
  intro chunks
  induction chunks with
  | nil => intro _ _; exact Or.inl ⟨rfl, rfl⟩
  | cons seg rest ih =>
    intro hlen hsmall
    obtain ⟨c3, c2, c1, c0, rfl⟩ : ∃ a b c d, seg = [a, b, c, d] := by
      have h4 := hlen seg (List.mem_cons_self seg rest)
      rcases seg with _ | ⟨a, _ | ⟨b, _ | ⟨c, _ | ⟨d, _ | _⟩⟩⟩⟩ <;> simp at h4
      exact ⟨a, b, c, d, rfl⟩
    rw [chunksTokens_cons] at hsmall ⊢
    by_cases hz : chunkTokens om twenty [c3, c2, c1, c0] = []
    · rw [if_pos hz, List.nil_append] at hsmall ⊢
      have hzero : charDigit c3 = 0 ∧ charDigit c2 = 0 ∧ charDigit c1 = 0 ∧
          charDigit c0 = 0 := by
        rw [chunkTokens_quad] at hz
        exact (segTokens_eq_nil_iff om twenty _ _ _ _).mp hz
      have hval : chunkValue [c3, c2, c1, c0] = 0 := by
        rw [chunkValue_quad]
        unfold segValue
        omega
      rcases ih (fun s hs => hlen s (List.mem_cons_of_mem _ hs)) hsmall with
        ⟨h1, h2⟩ | ⟨d, hd1, hd9, he, hv⟩
      · refine Or.inl ⟨h1, ?_⟩
        rw [chunksValue_cons, hval, h2]
        ring
      · refine Or.inr ⟨d, hd1, hd9, he, ?_⟩
        rw [chunksValue_cons, hval, hv]
        ring
    · rw [if_neg hz] at hsmall ⊢
      have hrlen : rest.length = 0 := by
        by_contra hr
        have hb : (10 : Nat) ^ (4 * rest.length) ∈ bigRankTokens rest.length := by
          unfold bigRankTokens
          rw [if_neg hr]
          simp
        have hmem : (10 : Nat) ^ (4 * rest.length) ∈
            (chunkTokens om twenty [c3, c2, c1, c0] ++ bigRankTokens rest.length) ++
              chunksTokens om twenty rest :=
          List.mem_append.mpr (Or.inl (List.mem_append.mpr (Or.inr hb)))
        have hlt := hsmall _ hmem
        have hge : (10 : Nat) ≤ 10 ^ (4 * rest.length) := by
          calc (10 : Nat) = 10 ^ 1 := (pow_one 10).symm
            _ ≤ 10 ^ (4 * rest.length) := Nat.pow_le_pow_right (by omega) (by omega)
        omega
      obtain rfl : rest = [] := List.length_eq_zero.mp hrlen
      simp only [List.length_nil, bigRankTokens_zero, chunksTokens_nil,
        List.append_nil] at hsmall ⊢
      rw [chunkTokens_quad] at hsmall hz ⊢
      unfold segTokens at hsmall hz ⊢
      have h3 := pieceTokens_empty_of_small om twenty 1000 (charDigit c3) (by omega)
        (fun t ht => hsmall t (by simp only [List.mem_append]; tauto))
      have h2 := pieceTokens_empty_of_small om twenty 100 (charDigit c2) (by omega)
        (fun t ht => hsmall t (by simp only [List.mem_append]; tauto))
      have h1 := pieceTokens_empty_of_small om twenty 10 (charDigit c1) (by omega)
        (fun t ht => hsmall t (by simp only [List.mem_append]; tauto))
      by_cases hd0 : charDigit c0 = 0
      · exact absurd (by rw [h3.1, h2.1, h1.1, if_pos hd0]; rfl) hz
      · have hd9 : charDigit c0 ≤ 9 := by
          have := hsmall (charDigit c0)
            (by rw [if_neg hd0]; simp only [List.mem_append]; right; simp)
          omega
        refine Or.inr ⟨charDigit c0, by omega, hd9, ?_, ?_⟩
        · rw [h3.1, h2.1, h1.1, if_neg hd0]
          rfl
        · rw [chunksValue_cons, chunkValue_quad]
          unfold segValue
          simp only [List.length_nil, Nat.mul_zero, pow_zero, Nat.mul_one]
          rw [h3.2, h2.2, h1.2]
          show 1000 * 0 + 100 * 0 + 10 * 0 + charDigit c0 + chunksValue [] = _
          show 1000 * 0 + 100 * 0 + 10 * 0 + charDigit c0 + 0 = _
          omega

theorem normalizeHelper_chunks (om twenty : Bool) (chunks : List (List Char))
    (hlen4 : ∀ seg ∈ chunks, seg.length = 4)
    (hdig : ∀ seg ∈ chunks, ∀ c ∈ seg, c.isDigit = true)
    (hsafe : ∀ seg ∈ chunks, chunkSafe om seg)
    (hlen5 : chunks.length ≤ 5)
    (hnz : chunksTokens om twenty chunks ≠ [])
    (hval : chunksValue chunks ≤ UINT64_MAX) :
    normalizeNumbersHelper (chunksTokens om twenty chunks) =
      some (chunksValue chunks) := by
  unfold normalizeNumbersHelper
  rw [if_neg hnz]
  by_cases hsmall : ∀ t ∈ chunksTokens om twenty chunks, t < 10
  · rcases chunksTokens_small om twenty chunks hlen4 hsmall with
      ⟨he, _⟩ | ⟨d, hd1, hd9, he, hv⟩
    · exact absurd he hnz
    · rw [he, hv]
      have hmax : listMax [d] < 10 := listMax_lt (by omega)
        (by intro x hx; rcases List.mem_singleton.mp hx with rfl; omega)
      rw [if_pos hmax]
      interval_cases d <;> decide
  · have hmax : ¬ listMax (chunksTokens om twenty chunks) < 10 := by
      push_neg at hsmall
      obtain ⟨t, ht, hge⟩ := hsmall
      have := le_listMax_of_mem ht
      omega
    rw [if_neg hmax]
    unfold interpretNumbersInJapaneseWay
    have hkey := interpretChunks om twenty chunks hlen4 hdig hsafe hnz
      ((chunksTokens om twenty chunks).length + 1) 0 UINT64_MAX
      (by omega)
      (by
        calc (10 : Nat) ^ (4 * (chunks.length - 1)) ≤ 10 ^ 16 :=
              Nat.pow_le_pow_right (by omega) (by omega)
          _ < UINT64_MAX := by decide)
      (by omega)
    rw [hkey, Nat.zero_add]

theorem replaceTwoTen_nil : replaceTwoTen [] = [] := rfl

theorem replaceTwoTen_twoTen (r : List Char) :
    replaceTwoTen ('弐' :: '拾' :: r) = '廿' :: replaceTwoTen r := rfl

theorem replaceTwoTen_cons_ne (c : Char) (r : List Char) (hc : c ≠ '弐') :
    replaceTwoTen (c :: r) = c :: replaceTwoTen r := by
  rw [replaceTwoTen.eq_def]
  split
  · rename_i heq
    rw [List.cons.injEq] at heq
    exact absurd heq.1 hc
  · rename_i c' r' heq
    rw [List.cons.injEq] at heq
    rw [heq.1, heq.2]
  · rename_i heq
    cases heq

theorem replaceTwoTen_two_ne (c2 : Char) (r : List Char) (h : c2 ≠ '拾') :
    replaceTwoTen ('弐' :: c2 :: r) = '弐' :: replaceTwoTen (c2 :: r) := by
  rw [replaceTwoTen.eq_def]
  split
  · rename_i heq
    rw [List.cons.injEq, List.cons.injEq] at heq
    exact absurd heq.2.1 h
  · rename_i c' r' heq
    rw [List.cons.injEq] at heq
    rw [heq.1, heq.2]
  · rename_i heq
    cases heq

theorem replaceTwoTen_append_aux (l2 : List Char) (h2 : l2.head? ≠ some '拾') :
    ∀ (n : Nat) (l1 : List Char), l1.length ≤ n →
      replaceTwoTen (l1 ++ l2) = replaceTwoTen l1 ++ replaceTwoTen l2 := by
  intro n
  induction n with
  | zero =>
    intro l1 hl
    obtain rfl : l1 = [] := List.length_eq_zero.mp (by omega)
    rw [List.nil_append, replaceTwoTen_nil, List.nil_append]
  | succ k ih =>
    intro l1 hl
    rcases l1 with _ | ⟨c, r⟩
    · rw [List.nil_append, replaceTwoTen_nil, List.nil_append]
    · by_cases hc : c = '弐'
      · subst hc
        rcases r with _ | ⟨c2, r2⟩
        · rcases l2 with _ | ⟨d, l2t⟩
          · rw [List.append_nil, replaceTwoTen_nil, List.append_nil]
          · have hd : d ≠ '拾' := by
              intro hdd
              exact h2 (by rw [hdd]; rfl)
            rw [List.cons_append, List.nil_append, replaceTwoTen_two_ne d l2t hd]
            rw [show replaceTwoTen ['弐'] = ['弐'] from rfl]
            rfl
        · by_cases hc2 : c2 = '拾'
          · subst hc2
            rw [List.cons_append, List.cons_append, replaceTwoTen_twoTen,
              replaceTwoTen_twoTen]
            rw [ih r2 (by simp only [List.length_cons] at hl; omega)]
            rfl
          · rw [List.cons_append, List.cons_append,
              replaceTwoTen_two_ne c2 _ hc2, replaceTwoTen_two_ne c2 r2 hc2]
            rw [show c2 :: (r2 ++ l2) = (c2 :: r2) ++ l2 from rfl]
            rw [ih (c2 :: r2) (by simp only [List.length_cons] at hl ⊢; omega)]
            rfl
      · rw [List.cons_append, replaceTwoTen_cons_ne c _ hc,
          replaceTwoTen_cons_ne c r hc]
        rw [ih r (by simp only [List.length_cons] at hl; omega)]
        rfl

theorem replaceTwoTen_append (l1 l2 : List Char) (h2 : l2.head? ≠ some '拾') :
    replaceTwoTen (l1 ++ l2) = replaceTwoTen l1 ++ replaceTwoTen l2 :=
  replaceTwoTen_append_aux l2 h2 l1.length l1 le_rfl

theorem head_ne_append {x : Char} {l1 l2 : List Char} (h1 : l1.head? ≠ some x)
    (h2 : l2.head? ≠ some x) : (l1 ++ l2).head? ≠ some x := by
  cases l1
  · rw [List.nil_append]
    exact h2
  · rw [List.cons_append]
    exact h1

theorem chunksTokens_eq_nil_value (om twenty : Bool) : ∀ chunks : List (List Char),
    (∀ seg ∈ chunks, seg.length = 4) →
    chunksTokens om twenty chunks = [] → chunksValue chunks = 0 := by
  intro chunks
  induction chunks with
  | nil => intro _ _; rfl
  | cons seg rest ih =>
    intro hlen hnil
    obtain ⟨c3, c2, c1, c0, rfl⟩ : ∃ a b c d, seg = [a, b, c, d] := by
      have h4 := hlen seg (List.mem_cons_self seg rest)
      rcases seg with _ | ⟨a, _ | ⟨b, _ | ⟨c, _ | ⟨d, _ | _⟩⟩⟩⟩ <;> simp at h4
      exact ⟨a, b, c, d, rfl⟩
    rw [chunksTokens_cons] at hnil
    obtain ⟨hfst, hrest⟩ := List.append_eq_nil.mp hnil
    have hz : chunkTokens om twenty [c3, c2, c1, c0] = [] := by
      by_contra hc
      rw [if_neg hc] at hfst
      obtain ⟨hcc, _⟩ := List.append_eq_nil.mp hfst
      exact hc hcc
    have hzero := (segTokens_eq_nil_iff om twenty _ _ _ _).mp
      (by rw [chunkTokens_quad] at hz; exact hz)
    rw [chunksValue_cons, chunkValue_quad]
    unfold segValue
    rw [ih (fun s hs => hlen s (List.mem_cons_of_mem _ hs)) hrest]
    rw [hzero.1, hzero.2.1, hzero.2.2.1, hzero.2.2.2]
    ring

theorem base10ValueFrom_zero_replicate : ∀ f : Nat,
    base10ValueFrom 0 (List.replicate f 0) = 0 := by
  intro f
  induction f with
  | zero => rfl
  | succ k ih =>
    rw [List.replicate_succ, base10ValueFrom_cons]
    simpa using ih

theorem charsValue_replicate_zero (f : Nat) (l : List Char) :
    charsValue (List.replicate f '0' ++ l) = charsValue l := by
  unfold charsValue
  rw [List.map_append, base10Value_eq_from, base10ValueFrom_append,
    List.map_replicate]
  rw [show charDigit '0' = 0 from rfl, base10ValueFrom_zero_replicate]
  rw [base10Value_eq_from]

theorem pieceChars_old_replace (i : Nat) (hi : i ≤ 3) (d : Nat) (hd : d ≤ 9) :
    ((replaceTwoTen (kanjiPieceChars Style.NUMBER_OLD_KANJI i (digitChar d))).map
        tokValue =
      (if i ≤ 2 then pieceTokens false true (rankOf i) d
       else if d = 0 then [] else [d])) ∧
    (∀ ch ∈ replaceTwoTen (kanjiPieceChars Style.NUMBER_OLD_KANJI i (digitChar d)),
      (kanjiNumberToArabicNumber ch).isSome = true) ∧
    ((kanjiPieceChars Style.NUMBER_OLD_KANJI i (digitChar d)).head? ≠ some '拾') := by
  interval_cases i <;> interval_cases d <;> exact ⟨by decide, by decide, by decide⟩

theorem biggerRank_old_facts (k : Nat) (hk : k ≤ 4) :
    replaceTwoTen (tableLookup (kanjiVariationBiggerRanks Style.NUMBER_OLD_KANJI) k) =
      tableLookup (kanjiVariationBiggerRanks Style.NUMBER_OLD_KANJI) k ∧
    (tableLookup (kanjiVariationBiggerRanks Style.NUMBER_OLD_KANJI) k).head? ≠
      some '拾' := by
  interval_cases k <;> exact ⟨by decide, by decide⟩

theorem segmentResult_old_pieces (c3 c2 c1 c0 : Char) :
    segmentResult Style.NUMBER_OLD_KANJI [c3, c2, c1, c0] =
      kanjiPieceChars Style.NUMBER_OLD_KANJI 0 c3 ++
        (kanjiPieceChars Style.NUMBER_OLD_KANJI 1 c2 ++
          (kanjiPieceChars Style.NUMBER_OLD_KANJI 2 c1 ++
            (kanjiPieceChars Style.NUMBER_OLD_KANJI 3 c0 ++ []))) := by
  unfold segmentResult
  rw [segmentResultAux_eq_pieces _ (Or.inr rfl)]
  rfl

theorem segmentResult_old_replace (c3 c2 c1 c0 : Char) (h3 : c3.isDigit = true)
    (h2 : c2.isDigit = true) (h1 : c1.isDigit = true) (h0 : c0.isDigit = true) :
    ((replaceTwoTen (segmentResult Style.NUMBER_OLD_KANJI [c3, c2, c1, c0])).map
        tokValue =
      chunkTokens false true [c3, c2, c1, c0]) ∧
    (∀ ch ∈ replaceTwoTen (segmentResult Style.NUMBER_OLD_KANJI [c3, c2, c1, c0]),
      (kanjiNumberToArabicNumber ch).isSome = true) ∧
    ((segmentResult Style.NUMBER_OLD_KANJI [c3, c2, c1, c0]).head? ≠ some '拾') := by
  have e3 := pieceChars_old_replace 0 (by omega) (charDigit c3) (charDigit_le_9 h3)
  have e2 := pieceChars_old_replace 1 (by omega) (charDigit c2) (charDigit_le_9 h2)
  have e1 := pieceChars_old_replace 2 (by omega) (charDigit c1) (charDigit_le_9 h1)
  have e0 := pieceChars_old_replace 3 (by omega) (charDigit c0) (charDigit_le_9 h0)
  rw [char_eq_digitChar h3] at e3
  rw [char_eq_digitChar h2] at e2
  rw [char_eq_digitChar h1] at e1
  rw [char_eq_digitChar h0] at e0
  have hnilh : ([] : List Char).head? ≠ some '拾' := by decide
  have ht0 : (kanjiPieceChars Style.NUMBER_OLD_KANJI 3 c0 ++ []).head? ≠
      some '拾' := head_ne_append e0.2.2 hnilh
  have ht1 : (kanjiPieceChars Style.NUMBER_OLD_KANJI 2 c1 ++
      (kanjiPieceChars Style.NUMBER_OLD_KANJI 3 c0 ++ [])).head? ≠ some '拾' :=
    head_ne_append e1.2.2 ht0
  have ht2 : (kanjiPieceChars Style.NUMBER_OLD_KANJI 1 c2 ++
      (kanjiPieceChars Style.NUMBER_OLD_KANJI 2 c1 ++
        (kanjiPieceChars Style.NUMBER_OLD_KANJI 3 c0 ++ []))).head? ≠ some '拾' :=
    head_ne_append e2.2.2 ht1
  have hdist : replaceTwoTen (segmentResult Style.NUMBER_OLD_KANJI
      [c3, c2, c1, c0]) =
      replaceTwoTen (kanjiPieceChars Style.NUMBER_OLD_KANJI 0 c3) ++
        (replaceTwoTen (kanjiPieceChars Style.NUMBER_OLD_KANJI 1 c2) ++
          (replaceTwoTen (kanjiPieceChars Style.NUMBER_OLD_KANJI 2 c1) ++
            (replaceTwoTen (kanjiPieceChars Style.NUMBER_OLD_KANJI 3 c0) ++ []))) := by
    rw [segmentResult_old_pieces]
    rw [replaceTwoTen_append _ _ ht2, replaceTwoTen_append _ _ ht1,
      replaceTwoTen_append _ _ ht0, replaceTwoTen_append _ _ hnilh,
      replaceTwoTen_nil]
  have hct : chunkTokens false true [c3, c2, c1, c0] =
      pieceTokens false true 1000 (charDigit c3) ++
        (pieceTokens false true 100 (charDigit c2) ++
          (pieceTokens false true 10 (charDigit c1) ++
            (if charDigit c0 = 0 then [] else [charDigit c0]))) := by
    rw [chunkTokens_quad]
    unfold segTokens
    simp [List.append_assoc]
  refine ⟨?_, ?_, ?_⟩
  · rw [hdist, hct]
    simp only [List.map_append, List.append_nil]
    rw [e3.1, e2.1, e1.1, e0.1]
    norm_num [rankOf]
  · rw [hdist]
    intro ch hch
    simp only [List.append_nil, List.mem_append] at hch
    rcases hch with h | h | h | h
    · exact e3.2.1 ch h
    · exact e2.2.1 ch h
    · exact e1.2.1 ch h
    · exact e0.2.1 ch h
  · rw [segmentResult_old_pieces]
    exact head_ne_append e3.2.2 ht2

theorem renderRanked_old_head : ∀ chunks : List (List Char),
    chunks.length ≤ 5 → (∀ seg ∈ chunks, seg.length = 4) →
    (∀ seg ∈ chunks, ∀ c ∈ seg, c.isDigit = true) →
    (renderRanked Style.NUMBER_OLD_KANJI chunks).head? ≠ some '拾' := by
  intro chunks
  induction chunks with
  | nil => intro _ _ _; decide
  | cons seg rest ih =>
    intro hlen5 hlen4 hdig
    obtain ⟨c3, c2, c1, c0, rfl⟩ : ∃ a b c d, seg = [a, b, c, d] := by
      have h4 := hlen4 seg (List.mem_cons_self seg rest)
      rcases seg with _ | ⟨a, _ | ⟨b, _ | ⟨c, _ | ⟨d, _ | _⟩⟩⟩⟩ <;> simp at h4
      exact ⟨a, b, c, d, rfl⟩
    have hd := hdig _ (List.mem_cons_self _ _)
    have hseg := segmentResult_old_replace c3 c2 c1 c0
      (hd c3 (by simp)) (hd c2 (by simp)) (hd c1 (by simp)) (hd c0 (by simp))
    have hbig := biggerRank_old_facts rest.length (by
      simp only [List.length_cons] at hlen5
      omega)
    have ihh := ih (by simp only [List.length_cons] at hlen5; omega)
      (fun s hs => hlen4 s (List.mem_cons_of_mem _ hs))
      (fun s hs => hdig s (List.mem_cons_of_mem _ hs))
    rw [renderRanked_cons]
    by_cases hz : segmentResult Style.NUMBER_OLD_KANJI [c3, c2, c1, c0] = []
    · rw [if_pos hz, List.nil_append]
      exact ihh
    · rw [if_neg hz]
      exact head_ne_append (head_ne_append hseg.2.2 hbig.2) ihh

theorem renderRanked_old_replace : ∀ chunks : List (List Char),
    chunks.length ≤ 5 → (∀ seg ∈ chunks, seg.length = 4) →
    (∀ seg ∈ chunks, ∀ c ∈ seg, c.isDigit = true) →
    ((replaceTwoTen (renderRanked Style.NUMBER_OLD_KANJI chunks)).map tokValue =
      chunksTokens false true chunks) ∧
    (∀ ch ∈ replaceTwoTen (renderRanked Style.NUMBER_OLD_KANJI chunks),
      (kanjiNumberToArabicNumber ch).isSome = true) := by
  intro chunks
  induction chunks with
  | nil => intro _ _ _; exact ⟨rfl, by intro ch hch; cases hch⟩
  | cons seg rest ih =>
    intro hlen5 hlen4 hdig
    obtain ⟨c3, c2, c1, c0, rfl⟩ : ∃ a b c d, seg = [a, b, c, d] := by
      have h4 := hlen4 seg (List.mem_cons_self seg rest)
      rcases seg with _ | ⟨a, _ | ⟨b, _ | ⟨c, _ | ⟨d, _ | _⟩⟩⟩⟩ <;> simp at h4
      exact ⟨a, b, c, d, rfl⟩
    have hd := hdig _ (List.mem_cons_self _ _)
    have hseg := segmentResult_old_replace c3 c2 c1 c0
      (hd c3 (by simp)) (hd c2 (by simp)) (hd c1 (by simp)) (hd c0 (by simp))
    have hsegp := segmentResult_spec Style.NUMBER_OLD_KANJI false
      (Or.inr ⟨rfl, rfl⟩) c3 c2 c1 c0
      (hd c3 (by simp)) (hd c2 (by simp)) (hd c1 (by simp)) (hd c0 (by simp))
    have hklt : rest.length ≤ 4 := by
      simp only [List.length_cons] at hlen5
      omega
    have hbigp := biggerRank_spec Style.NUMBER_OLD_KANJI (Or.inr rfl)
      rest.length hklt
    have hbigo := biggerRank_old_facts rest.length hklt
    have hresth := renderRanked_old_head rest
      (by simp only [List.length_cons] at hlen5; omega)
      (fun s hs => hlen4 s (List.mem_cons_of_mem _ hs))
      (fun s hs => hdig s (List.mem_cons_of_mem _ hs))
    obtain ⟨ihm, ihs⟩ := ih (by simp only [List.length_cons] at hlen5; omega)
      (fun s hs => hlen4 s (List.mem_cons_of_mem _ hs))
      (fun s hs => hdig s (List.mem_cons_of_mem _ hs))
    rw [renderRanked_cons, chunksTokens_cons]
    by_cases hz : segmentResult Style.NUMBER_OLD_KANJI [c3, c2, c1, c0] = []
    · have hzf : chunkTokens false false [c3, c2, c1, c0] = [] := hsegp.2.2.mp hz
      have hzt : chunkTokens false true [c3, c2, c1, c0] = [] := by
        rw [chunkTokens_quad] at hzf ⊢
        rw [segTokens_eq_nil_iff] at hzf ⊢
        exact hzf
      rw [if_pos hz, if_pos hzt, List.nil_append, List.nil_append]
      exact ⟨ihm, ihs⟩
    · have hztf : ¬ chunkTokens false true [c3, c2, c1, c0] = [] := by
        intro hc
        apply hz
        apply hsegp.2.2.mpr
        rw [chunkTokens_quad] at hc ⊢
        rw [segTokens_eq_nil_iff] at hc ⊢
        exact hc
      rw [if_neg hz, if_neg hztf]
      have hdist1 : replaceTwoTen
          ((segmentResult Style.NUMBER_OLD_KANJI [c3, c2, c1, c0] ++
            tableLookup (kanjiVariationBiggerRanks Style.NUMBER_OLD_KANJI)
              rest.length) ++ renderRanked Style.NUMBER_OLD_KANJI rest) =
          (replaceTwoTen (segmentResult Style.NUMBER_OLD_KANJI [c3, c2, c1, c0]) ++
            tableLookup (kanjiVariationBiggerRanks Style.NUMBER_OLD_KANJI)
              rest.length) ++
            replaceTwoTen (renderRanked Style.NUMBER_OLD_KANJI rest) := by
        rw [replaceTwoTen_append _ _ hresth,
          replaceTwoTen_append _ _ hbigo.2, hbigo.1]
      rw [hdist1]
      constructor
      · simp only [List.map_append]
        rw [hseg.1, hbigp.1, ihm]
      · intro ch hch
        simp only [List.mem_append] at hch
        rcases hch with (h | h) | h
        · exact hseg.2.1 ch h
        · exact hbigp.2 ch h
        · exact ihs ch h

theorem tokenizeAux_all : ∀ l : List Char,
    (∀ c ∈ l, (kanjiNumberToArabicNumber c).isSome = true) →
    tokenizeAux l = (l.map tokValue, (l.map kanjiDigitEcho).flatten, []) := by
  intro l
  induction l with
  | nil => intro _; rfl
  | cons c rest ih =>
    intro h
    have hc := h c (List.mem_cons_self _ _)
    obtain ⟨v, hv⟩ := Option.isSome_iff_exists.mp hc
    unfold tokenizeAux
    rw [hv]
    simp only []
    rw [ih (fun x hx => h x (List.mem_cons_of_mem _ hx))]
    simp only [List.map_cons, List.flatten_cons]
    unfold tokValue
    rw [hv]
    rfl

theorem chunkSafe_true (seg : List Char) : chunkSafe true seg := by
  unfold chunkSafe
  rcases seg with _ | ⟨a, _ | ⟨b, _ | ⟨c, _ | ⟨d, _ | _⟩⟩⟩⟩ <;> simp

theorem normalizeNumbers_of_chunks (text : List Char) (om twenty : Bool)
    (chunks : List (List Char))
    (htok : text.map tokValue = chunksTokens om twenty chunks)
    (hsome : ∀ c ∈ text, (kanjiNumberToArabicNumber c).isSome = true)
    (hlen4 : ∀ seg ∈ chunks, seg.length = 4)
    (hdig : ∀ seg ∈ chunks, ∀ c ∈ seg, c.isDigit = true)
    (hsafe : ∀ seg ∈ chunks, chunkSafe om seg)
    (hlen5 : chunks.length ≤ 5)
    (hnz : chunksTokens om twenty chunks ≠ [])
    (hval : chunksValue chunks ≤ UINT64_MAX) :
    (normalizeNumbers text true).map Prod.snd =
      some (strOfNat (chunksValue chunks)) := by
  have ht := tokenizeAux_all text hsome
  rw [htok] at ht
  have hint : normalizeNumbersInternal text true false =
      some ((text.map kanjiDigitEcho).flatten,
        strOfNat (chunksValue chunks), []) := by
    unfold normalizeNumbersInternal
    simp only [ht]
    rw [if_neg (by simp)]
    rw [if_neg hnz]
    rw [normalizeHelper_chunks om twenty chunks hlen4 hdig hsafe hlen5 hnz hval]
    rfl
  unfold normalizeNumbers
  rw [hint]
  rfl

/-- The zero-padded copy of the input that `ArabicToKanji` segments: leading
zeros bring the length up to the next multiple of four. -/
def paddedInput (l : List Char) : List Char :=
  List.replicate ((4 - l.length % 4) % 4) '0' ++ l

theorem base10ValueFrom_zero_of_all : ∀ ds : List Nat,
    (∀ d ∈ ds, d = 0) → base10ValueFrom 0 ds = 0 := by
  intro ds
  induction ds with
  | nil => intro _; rfl
  | cons d rest ih =>
    intro h
    rw [base10ValueFrom_cons, h d (List.mem_cons_self _ _)]
    exact ih (fun x hx => h x (List.mem_cons_of_mem _ hx))

theorem isDecimalInteger_strOfNat (n : Nat) : isDecimalInteger (strOfNat n) = true := by
  unfold isDecimalInteger
  rw [Bool.and_eq_true]
  constructor
  · rcases he : strOfNat n with _ | ⟨c, r⟩
    · exact absurd he (strOfNat_ne_nil n)
    · rfl
  · rw [List.all_eq_true]
    intro c hc
    exact strOfNat_isDigit n c hc

theorem strOfNat_dropZeros_ne (n : Nat) (hn : 1 ≤ n) (h64 : n < 10 ^ 64) :
    (strOfNat n).dropWhile (fun c => c = '0') ≠ [] := by
  intro h
  have hall := List.dropWhile_eq_nil_iff.mp h
  have hzero : charsValue (strOfNat n) = 0 := by
    unfold charsValue
    rw [base10Value_eq_from]
    apply base10ValueFrom_zero_of_all
    intro d hd
    rw [List.mem_map] at hd
    obtain ⟨c, hc, rfl⟩ := hd
    have hc0 : c = '0' := of_decide_eq_true (hall c hc)
    rw [hc0]
    rfl
  rw [charsValue_strOfNat n h64] at hzero
  omega

theorem paddedInput_facts (l : List Char) (hdigs : ∀ c ∈ l, c.isDigit = true)
    (hlen : l.length ≤ 20) :
    (∀ seg ∈ chunk4 (paddedInput l), seg.length = 4) ∧
    (∀ seg ∈ chunk4 (paddedInput l), ∀ c ∈ seg, c.isDigit = true) ∧
    (chunk4 (paddedInput l)).length ≤ 5 ∧
    chunksValue (chunk4 (paddedInput l)) = charsValue l := by
  have hplen : (paddedInput l).length = (4 - l.length % 4) % 4 + l.length := by
    unfold paddedInput
    rw [List.length_append, List.length_replicate]
  obtain ⟨m, hm⟩ : ∃ m, (paddedInput l).length = 4 * m :=
    ⟨(paddedInput l).length / 4, by omega⟩
  obtain ⟨hflat, hseg4, hmem, hcount⟩ := chunk4_spec m (paddedInput l) hm
  refine ⟨hseg4, ?_, ?_, ?_⟩
  · intro seg hseg c hc
    have hcin := hmem seg hseg c hc
    unfold paddedInput at hcin
    rcases List.mem_append.mp hcin with h | h
    · rw [List.eq_of_mem_replicate h]
      decide
    · exact hdigs c h
  · rw [hcount]
    omega
  · rw [chunksValue_charsValue _ hseg4, hflat]
    unfold paddedInput
    exact charsValue_replicate_zero _ _

theorem arabicToKanji_eval (l : List Char) (hd : isDecimalInteger l = true)
    (hnz0 : l.dropWhile (fun c => c = '0') ≠ [])
    (hlen : ¬ 5 * 4 < l.length) :
    (arabicToKanji l).2 =
      (if (chunk4 (paddedInput l)).length = 1 then []
       else [NumberString.mk
         (renderRanked Style.NUMBER_ARABIC_AND_KANJI_HALFWIDTH
           (chunk4 (paddedInput l))) "数字"
         Style.NUMBER_ARABIC_AND_KANJI_HALFWIDTH]) ++
      (if (chunk4 (paddedInput l)).length = 1 then []
       else [NumberString.mk
         (renderRanked Style.NUMBER_ARABIC_AND_KANJI_FULLWIDTH
           (chunk4 (paddedInput l))) "数字"
         Style.NUMBER_ARABIC_AND_KANJI_FULLWIDTH]) ++
      [NumberString.mk (renderRanked Style.NUMBER_KANJI (chunk4 (paddedInput l)))
        "漢数字" Style.NUMBER_KANJI] ++
      [NumberString.mk (renderRanked Style.NUMBER_OLD_KANJI (chunk4 (paddedInput l)))
        "大字" Style.NUMBER_OLD_KANJI] ++
      (if containsTwoTen
          (renderRanked Style.NUMBER_OLD_KANJI (chunk4 (paddedInput l))) then
        [NumberString.mk
          (replaceTwoTen
            (renderRanked Style.NUMBER_OLD_KANJI (chunk4 (paddedInput l))))
          "大字" Style.NUMBER_OLD_KANJI]
       else []) ++
      (if paddedInput l = "0010".data then
        [NumberString.mk ['拾'] "大字" Style.NUMBER_OLD_KANJI] else []) ++
      (if paddedInput l = "1000".data then
        [NumberString.mk ['阡'] "大字" Style.NUMBER_OLD_KANJI] else []) := by
  unfold arabicToKanji paddedInput
  rw [if_neg (show ¬ ¬ (isDecimalInteger l = true) from fun h => h hd)]
  rw [if_neg hnz0]
  rw [if_neg hlen]

theorem mem_of_ite_nil {α : Type} {p : Prop} [Decidable p] {a : α} {l : List α}
    (h : a ∈ (if p then ([] : List α) else l)) : a ∈ l := by
  by_cases hp : p
  · rw [if_pos hp] at h
    cases h
  · rwa [if_neg hp] at h

theorem of_mem_ite_sing {α : Type} {p : Prop} [Decidable p] {a e : α}
    (h : a ∈ (if p then [e] else ([] : List α))) : p ∧ a = e := by
  by_cases hp : p
  · rw [if_pos hp] at h
    exact ⟨hp, List.mem_singleton.mp h⟩
  · rw [if_neg hp] at h
    cases h

/-- C1 (amended): for every `n ≤ 2^64 - 1`, every plain-Kanji result of
`ArabicToKanji(str(n))` round-trips through `NormalizeNumbers` (with leading
zeros trimmed) back to `str(n)`; every Daiji (old-Kanji) result round-trips
under the additional condition that no 4-digit group of the zero-padded input
has a hundreds or tens digit equal to 1 (otherwise the Daiji text contains
`壱百`/`壱拾`, which the reducer's grammar rejects). -/
theorem c1_round_trip (n : Nat) (hn : n ≤ UINT64_MAX) :
    ∀ r ∈ (arabicToKanji (strOfNat n)).2,
      (r.style = Style.NUMBER_KANJI →
        (normalizeNumbers r.value true).map Prod.snd = some (strOfNat n)) ∧
      (r.style = Style.NUMBER_OLD_KANJI →
        (∀ seg ∈ chunk4 (paddedInput (strOfNat n)), chunkSafe false seg) →
        (normalizeNumbers r.value true).map Prod.snd = some (strOfNat n)) := by
  have h64 : n < 10 ^ 64 := by
    have hu : UINT64_MAX < 10 ^ 64 := by decide
    omega
  by_cases hz : n = 0
  · subst hz
    intro r hr
    have harr : (arabicToKanji (strOfNat 0)).2 =
        [NumberString.mk ['零'] "大字" Style.NUMBER_OLD_KANJI] := rfl
    rw [harr] at hr
    rw [List.mem_singleton] at hr
    subst hr
    refine ⟨fun hsty => Style.noConfusion hsty, fun _ _ => by decide⟩
  · have hn1 : 1 ≤ n := by omega
    have h20 : (strOfNat n).length ≤ 20 := strOfNat_length n (by
      have hu : UINT64_MAX < 10 ^ 20 := by decide
      omega)
    have hdec := isDecimalInteger_strOfNat n
    have hnz0 := strOfNat_dropZeros_ne n hn1 h64
    have hllt : ¬ 5 * 4 < (strOfNat n).length := by omega
    have harr := arabicToKanji_eval (strOfNat n) hdec hnz0 hllt
    obtain ⟨hseg4, hdig, hm5, hvaln⟩ :=
      paddedInput_facts (strOfNat n) (strOfNat_isDigit n) h20
    rw [charsValue_strOfNat n h64] at hvaln
    have hval_le : chunksValue (chunk4 (paddedInput (strOfNat n))) ≤ UINT64_MAX := by
      rw [hvaln]
      exact hn
    have hnzc : ∀ om twenty : Bool,
        chunksTokens om twenty (chunk4 (paddedInput (strOfNat n))) ≠ [] := by
      intro om twenty h
      have h0 := chunksTokens_eq_nil_value om twenty _ hseg4 h
      rw [hvaln] at h0
      omega
    intro r hr
    rw [harr] at hr
    simp only [List.mem_append] at hr
    rcases hr with ((((((h | h) | h) | h) | h) | h) | h)
    · have := mem_of_ite_nil h
      rw [List.mem_singleton] at this
      subst this
      exact ⟨fun hsty => Style.noConfusion hsty,
        fun hsty => Style.noConfusion hsty⟩
    · have := mem_of_ite_nil h
      rw [List.mem_singleton] at this
      subst this
      exact ⟨fun hsty => Style.noConfusion hsty,
        fun hsty => Style.noConfusion hsty⟩
    · rw [List.mem_singleton] at h
      subst h
      refine ⟨fun _ => ?_, fun hsty => Style.noConfusion hsty⟩
      have hrr := renderRanked_spec Style.NUMBER_KANJI true (Or.inl ⟨rfl, rfl⟩)
        (chunk4 (paddedInput (strOfNat n))) hm5 hseg4 hdig
      have hres := normalizeNumbers_of_chunks _ true false _ hrr.1 hrr.2 hseg4
        hdig (fun seg _ => chunkSafe_true seg) hm5 (hnzc true false) hval_le
      rw [hvaln] at hres
      exact hres
    · rw [List.mem_singleton] at h
      subst h
      refine ⟨fun hsty => Style.noConfusion hsty, fun _ hsafe => ?_⟩
      have hrr := renderRanked_spec Style.NUMBER_OLD_KANJI false (Or.inr ⟨rfl, rfl⟩)
        (chunk4 (paddedInput (strOfNat n))) hm5 hseg4 hdig
      have hres := normalizeNumbers_of_chunks _ false false _ hrr.1 hrr.2 hseg4
        hdig hsafe hm5 (hnzc false false) hval_le
      rw [hvaln] at hres
      exact hres
    · obtain ⟨_, heq⟩ := of_mem_ite_sing h
      subst heq
      refine ⟨fun hsty => Style.noConfusion hsty, fun _ hsafe => ?_⟩
      have hrr := renderRanked_old_replace (chunk4 (paddedInput (strOfNat n)))
        hm5 hseg4 hdig
      have hres := normalizeNumbers_of_chunks _ false true _ hrr.1 hrr.2 hseg4
        hdig hsafe hm5 (hnzc false true) hval_le
      rw [hvaln] at hres
      exact hres
    · obtain ⟨hinp, heq⟩ := of_mem_ite_sing h
      subst heq
      refine ⟨fun hsty => Style.noConfusion hsty, fun _ hsafe => ?_⟩
      rw [hinp] at hsafe
      have hcs := hsafe ['0', '0', '1', '0'] (by decide)
      exact absurd hcs (by decide)
    · obtain ⟨hinp, heq⟩ := of_mem_ite_sing h
      subst heq
      refine ⟨fun hsty => Style.noConfusion hsty, fun _ _ => ?_⟩
      have h1000 : n = 1000 := by
        have hv : chunksValue (chunk4 (paddedInput (strOfNat n))) = 1000 := by
          rw [hinp]
          decide
        omega
      subst h1000
      decide

/-- C1 counterexample to the original claim: for `n = 10` the Daiji result
`壱拾` fails to normalize at all (the reducer rejects `[1, 10]`), and for
`n = 2 * 10^19` (21 digits short of the length gate but above `2^64 - 1`)
even the plain-Kanji result `二千京` fails on the overflow check. -/
theorem c1_counterexample :
    (∃ r ∈ (arabicToKanji (strOfNat 10)).2,
      r.style = Style.NUMBER_OLD_KANJI ∧ normalizeNumbers r.value true = none) ∧
    (∃ r ∈ (arabicToKanji (strOfNat 20000000000000000000)).2,
      r.style = Style.NUMBER_KANJI ∧ normalizeNumbers r.value true = none) := by
  constructor
  · decide
  · decide

/-- C1 witness: at `n = 12345` the amended theorem applies to the concrete
Daiji result `壱萬弐阡参百四拾五` with both hypotheses discharged. -/
theorem c1_witness :
    12345 ≤ UINT64_MAX ∧
    (∀ seg ∈ chunk4 (paddedInput (strOfNat 12345)), chunkSafe false seg) ∧
    (normalizeNumbers ['壱', '萬', '弐', '阡', '参', '百', '四', '拾', '五'] true).map
      Prod.snd = some (strOfNat 12345) :=
  ⟨by decide, by decide,
    (c1_round_trip 12345 (by decide)
      (NumberString.mk ['壱', '萬', '弐', '阡', '参', '百', '四', '拾', '五'] "大字"
        Style.NUMBER_OLD_KANJI) (by decide)).2 rfl (by decide)⟩

end Mozc
